import Mathlib

/-!
Verification development for the tabmail-native-fts hybrid search engine.

This file gives a shallow embedding, in Lean 4, of the parts of the Rust
source that the specification claims talk about:

* `src/fts/query.rs`    — the FTS5 query rewriter (`build_fts_match` and its
  helpers `translate_aliases`, `extract_field_quoted`, `split_field`, ...);
* `src/fts/synonyms.rs` — the static synonym table and `expand`;
* `src/fts/hybrid.rs`   — BM25/cosine score normalization and `merge_results`;
* `src/fts/db.rs`       — `index_batch`, `parse_date_param`, the date-filter
  extraction of `search` / `search_fts_only`, `query_by_date_range`,
  `rebuild_embeddings_batch`;
* `src/fts/memory_db.rs` — the memory-side mirrors and
  `memory_read_by_timestamp`;
* `src/main.rs`          — the `memoryRead` request handler;
* `src/embeddings/text_prep.rs` and `src/embeddings/engine.rs` — embedding
  text preparation, mean pooling and L2 normalization.

Modelling conventions:

* Rust `&str`/`String` values are modelled as `List Char` (`Str`).  The query
  rewriter scans bytes in the source; on ASCII input (the domain of all
  claims) the byte scanner and the character scanner coincide, and the
  character-level model is used throughout.
* Rust `f64` values are modelled as rationals, together with an explicit
  `F64` wrapper with `nan` / `inf` / `neginf` constructors where the source
  inspects finiteness.  Real-valued quantities produced by the embedding
  engine are modelled over `ℝ` (the L2 norm needs a square root).
* `i64` values are modelled as `Int`; saturating float-to-int casts are
  modelled explicitly.
* SQLite tables are modelled as association lists keyed by rowid; SQL
  `ORDER BY` over distinct integer keys is modelled by a stable insertion
  sort, and a negative SQL `LIMIT` means "no limit" as in SQLite.
* `HashMap::into_values` iteration order is unspecified in Rust; the model
  takes the iteration order as an explicit `order : List Int` parameter,
  constrained to enumerate exactly the map's keys (`EnumeratesKeys`).
* Fallible operations (embedding a document, parsing a date) return
  `Option` / explicit result inductives.
-/

/-- Rust strings, modelled as lists of characters. -/
abbrev Str := List Char

/-- Coerce a Lean string literal into the `Str` model. -/
def strOf (s : String) : Str := s.data

/-- Rust `u8::is_ascii_whitespace`: space, tab, line feed, form feed,
carriage return (note: not vertical tab). -/
def isAsciiWs (c : Char) : Bool :=
  c = ' ' || c = '\t' || c = '\n' || c = '\r' || c = Char.ofNat 12

/-- Rust `char::is_whitespace` (Unicode `White_Space`). -/
def rustIsWs (c : Char) : Bool :=
  (9 ≤ c.toNat && c.toNat ≤ 13) || c.toNat = 32 || c.toNat = 0x85 ||
  c.toNat = 0xA0 || c.toNat = 0x1680 ||
  (0x2000 ≤ c.toNat && c.toNat ≤ 0x200A) ||
  c.toNat = 0x2028 || c.toNat = 0x2029 || c.toNat = 0x202F ||
  c.toNat = 0x205F || c.toNat = 0x3000

/-- Rust `char::is_ascii_alphabetic`. -/
def isAsciiAlpha (c : Char) : Bool :=
  (97 ≤ c.toNat && c.toNat ≤ 122) || (65 ≤ c.toNat && c.toNat ≤ 90)

/-- Rust `char::is_ascii_digit`. -/
def isAsciiDigit (c : Char) : Bool := 48 ≤ c.toNat && c.toNat ≤ 57

/-- Rust `char::is_ascii_alphanumeric`. -/
def isAsciiAlnum (c : Char) : Bool := isAsciiAlpha c || isAsciiDigit c

/-- Rust `char::is_alphanumeric`.  The source applies it to user query
characters; the model covers the ASCII range (all claims concern ASCII
queries), so it coincides with `is_ascii_alphanumeric` here. -/
def rustIsAlnum (c : Char) : Bool := isAsciiAlnum c

/-- A byte that extends a word for the word-boundary test of
`starts_word_at` in `query.rs`: ASCII alphanumeric or underscore. -/
def isWordByte (c : Char) : Bool := isAsciiAlnum c || c = '_'

/-- Rust `u8::to_ascii_lowercase`. -/
def asciiLower (c : Char) : Char :=
  if 65 ≤ c.toNat && c.toNat ≤ 90 then Char.ofNat (c.toNat + 32) else c

/-- Rust `str::to_lowercase`, restricted to the simple case where every
character lowercases to a single character (true on ASCII, the domain of
the synonym table and of all claims). -/
def rustToLower (s : Str) : Str := s.map Char.toLower

/-- Rust `str::trim` (trim Unicode whitespace from both ends). -/
def rustTrim (s : Str) : Str :=
  ((s.dropWhile rustIsWs).reverse.dropWhile rustIsWs).reverse

/-- Helper for `splitWs`: accumulate the current token (reversed). -/
def splitWsAux : Str → Str → List Str
  | [], cur => if cur.isEmpty then [] else [cur.reverse]
  | c :: rest, cur =>
    if rustIsWs c then
      if cur.isEmpty then splitWsAux rest []
      else cur.reverse :: splitWsAux rest []
    else splitWsAux rest (c :: cur)

/-- Rust `str::split_whitespace`: split on runs of whitespace, yielding no
empty tokens. -/
def splitWs (s : Str) : List Str := splitWsAux s []

/-- Does the string end with the given character? -/
def endsWith (c : Char) (s : Str) : Bool := s.getLast? == some c

/-! ### Synonym table (`src/fts/synonyms.rs`)

The static lexicon `email_synonyms()` transcribed from the source.  The
canonical name (first component) is unused by the construction, exactly as
in the source (`for (_canonical, group) in email_synonyms()`). -/

/-- The static synonym groups of `email_synonyms()` in source order. -/
def emailSynonyms : List (String × List String) := [
  ("meeting", ["meeting", "call", "sync", "standup", "huddle", "session", "appointment"]),
  ("call", ["call", "meeting", "phone", "dial", "ring", "conference"]),
  ("conference", ["conference", "meeting", "call", "webinar", "summit"]),
  ("appointment", ["appointment", "meeting", "booking", "reservation", "slot"]),
  ("schedule", ["schedule", "calendar", "agenda", "timetable", "plan"]),
  ("reschedule", ["reschedule", "postpone", "delay", "move", "push"]),
  ("cancel", ["cancel", "cancelled", "abort", "drop", "revoke"]),
  ("urgent", ["urgent", "asap", "immediately", "priority", "critical", "important", "rush"]),
  ("asap", ["asap", "urgent", "immediately", "priority", "rush", "soon"]),
  ("important", ["important", "urgent", "priority", "critical", "key", "essential"]),
  ("deadline", ["deadline", "due", "duedate", "cutoff", "target"]),
  ("reminder", ["reminder", "followup", "nudge", "ping", "checkin"]),
  ("attachment", ["attachment", "attached", "file", "document", "enclosed", "enclosure"]),
  ("attached", ["attached", "attachment", "enclosed", "file", "included"]),
  ("document", ["document", "doc", "file", "paper", "pdf", "attachment"]),
  ("file", ["file", "document", "attachment", "doc"]),
  ("pdf", ["pdf", "document", "file", "acrobat"]),
  ("spreadsheet", ["spreadsheet", "excel", "xlsx", "xls", "sheet", "csv"]),
  ("presentation", ["presentation", "ppt", "powerpoint", "slides", "deck"]),
  ("report", ["report", "summary", "analysis", "review", "findings"]),
  ("invoice", ["invoice", "bill", "payment", "receipt", "statement", "billing"]),
  ("payment", ["payment", "pay", "invoice", "remittance", "transfer", "transaction"]),
  ("bill", ["bill", "invoice", "payment", "charge", "fee"]),
  ("receipt", ["receipt", "invoice", "confirmation", "proof"]),
  ("quote", ["quote", "quotation", "estimate", "proposal", "pricing", "bid"]),
  ("budget", ["budget", "cost", "expense", "spending", "allocation"]),
  ("expense", ["expense", "cost", "spending", "reimbursement", "claim"]),
  ("approve", ["approve", "approved", "approval", "authorize", "confirm", "signoff"]),
  ("review", ["review", "feedback", "comments", "evaluate", "assess", "check"]),
  ("feedback", ["feedback", "review", "comments", "input", "thoughts", "opinion"]),
  ("confirm", ["confirm", "confirmation", "verified", "acknowledge", "approve"]),
  ("reject", ["reject", "rejected", "decline", "deny", "disapprove"]),
  ("update", ["update", "status", "progress", "news", "latest"]),
  ("status", ["status", "update", "progress", "state", "situation"]),
  ("progress", ["progress", "update", "status", "advancement", "development"]),
  ("complete", ["complete", "completed", "done", "finished", "ready"]),
  ("pending", ["pending", "waiting", "outstanding", "incomplete", "open"]),
  ("team", ["team", "group", "squad", "crew", "staff"]),
  ("manager", ["manager", "supervisor", "boss", "lead", "director"]),
  ("client", ["client", "customer", "account", "partner"]),
  ("customer", ["customer", "client", "user", "buyer"]),
  ("vendor", ["vendor", "supplier", "provider", "contractor"]),
  ("send", ["send", "sent", "forward", "share", "transmit"]),
  ("forward", ["forward", "fwd", "send", "share", "pass"]),
  ("reply", ["reply", "respond", "answer", "response"]),
  ("request", ["request", "ask", "require", "need", "inquiry"]),
  ("submit", ["submit", "submitted", "send", "file", "deliver"]),
  ("share", ["share", "send", "forward", "distribute", "circulate"]),
  ("question", ["question", "query", "inquiry", "ask", "help"]),
  ("help", ["help", "assist", "support", "aid", "guidance"]),
  ("issue", ["issue", "problem", "bug", "error", "trouble", "concern"]),
  ("problem", ["problem", "issue", "bug", "error", "trouble"]),
  ("error", ["error", "bug", "issue", "problem", "mistake", "failure"]),
  ("today", ["today", "now"]),
  ("tomorrow", ["tomorrow"]),
  ("week", ["week", "weekly"]),
  ("month", ["month", "monthly"]),
  ("project", ["project", "initiative", "program", "effort", "work"]),
  ("task", ["task", "todo", "action", "item", "job", "assignment"]),
  ("milestone", ["milestone", "deliverable", "checkpoint", "goal", "target"]),
  ("launch", ["launch", "release", "deploy", "ship", "rollout", "golive"]),
  ("contract", ["contract", "agreement", "deal", "terms", "nda"]),
  ("agreement", ["agreement", "contract", "deal", "terms", "arrangement"]),
  ("sign", ["sign", "signature", "execute", "approve", "authorize"]),
  ("legal", ["legal", "law", "attorney", "lawyer", "counsel", "compliance"]),
  ("travel", ["travel", "trip", "flight", "booking", "itinerary"]),
  ("flight", ["flight", "travel", "airline", "plane", "booking"]),
  ("hotel", ["hotel", "accommodation", "lodging", "booking", "stay"]),
  ("booking", ["booking", "reservation", "travel", "flight", "hotel"])]

/-- Lexicographic byte order on ASCII strings (Rust `String` `Ord`). -/
def strLe : Str → Str → Bool
  | [], _ => true
  | _ :: _, [] => false
  | x :: xs, y :: ys =>
    if x.toNat < y.toNat then true
    else if y.toNat < x.toNat then false
    else strLe xs ys

/-- Insert into a sorted duplicate-free list (model of `BTreeSet::insert`). -/
def btreeInsert (x : Str) : List Str → List Str
  | [] => [x]
  | y :: ys =>
    if x = y then y :: ys
    else if strLe x y then x :: y :: ys
    else y :: btreeInsert x ys

/-- Model of `BTreeSet<String>` built from a lowercased group: sorted,
duplicate-free, iterated in ascending order. -/
def btreeOf (group : List String) : List Str :=
  (group.map (fun w => rustToLower (strOf w))).foldl (fun acc w => btreeInsert w acc) []

/-- One step of `SynonymLookup::new`: insert every lowercased member of the
group as a key mapping to the normalized group, first mapping wins. -/
def synMapInsertGroup (m : List (Str × List Str)) (group : List String) :
    List (Str × List Str) :=
  let ng := btreeOf group
  group.foldl (fun m w =>
    let key := rustToLower (strOf w)
    if (m.lookup key).isSome then m else m ++ [(key, ng)]) m

/-- The map field of `SynonymLookup`, built exactly as in `SynonymLookup::new`
(the map content does not depend on `HashMap` iteration order because the
groups are inserted in `Vec` order with a first-wins check). -/
def synMap : List (Str × List Str) :=
  emailSynonyms.foldl (fun m p => synMapInsertGroup m p.2) []

/-- The group stored in the `SynonymLookup` map for a key: the normalized
group of the first entry of `email_synonyms()` one of whose lowercased
members equals the key (first-wins insertion makes the map lookup equal to
this first-group search; `synGroupOf_eq_synMap_lookup` below proves the
equivalence with the `synMap` construction). -/
def synGroupOf (key : Str) : Option (List Str) :=
  (emailSynonyms.find? (fun gr =>
    gr.2.any (fun w => rustToLower (strOf w) == key))).map (fun gr => btreeOf gr.2)

/-- `SynonymLookup::expand`: look the lowercased word up; if its group has
more than one member, return `"(t1 OR t2 OR ...)"` over the sorted group,
else return the word unchanged. -/
def synExpand (word : Str) : Str :=
  match synGroupOf (rustToLower word) with
  | some group =>
    if 1 < group.length then
      strOf "(" ++ List.intercalate (strOf " OR ") group ++ strOf ")"
    else word
  | none => word

/-! ### Query rewriter (`src/fts/query.rs`) -/

/-- One attempt of `starts_word_at` + whitespace skip + colon, at the head of
`cs` (the word-boundary condition on the previous character is handled by
the caller).  Returns the remainder after the colon when the alias pattern
matches. -/
def aliasAt (nd cs : Str) : Option Str :=
  if (cs.take nd.length).map asciiLower = nd.map asciiLower then
    match (cs.drop nd.length).dropWhile isAsciiWs with
    | ':' :: t => some t
    | _ => none
  else none

/-- The scanner loop of `translate_aliases`; `prevWord` records whether the
previous character was alphanumeric-or-underscore (the word-boundary
condition of `starts_word_at`).  The `fuel` argument only bounds the
recursion: every step consumes at least one character, so
`fuel = cs.length` (as supplied by `translateAliases`) never runs out. -/
def translateAliasesAux : Nat → Bool → Str → Str
  | 0, _, cs => cs
  | _ + 1, _, [] => []
  | fuel + 1, prevWord, c :: rest =>
    if prevWord then c :: translateAliasesAux fuel (isWordByte c) rest
    else
      match aliasAt (strOf "from") (c :: rest) with
      | some tail => strOf "from_:" ++ translateAliasesAux fuel false tail
      | none =>
        match aliasAt (strOf "to") (c :: rest) with
        | some tail => strOf "to_:" ++ translateAliasesAux fuel false tail
        | none => c :: translateAliasesAux fuel (isWordByte c) rest

/-- `translate_aliases`: rewrite word-boundary, case-insensitive `from:` /
`to:` (whitespace allowed before the colon) into `from_:` / `to_:`. -/
def translateAliases (cs : Str) : Str := translateAliasesAux cs.length false cs

/-- `is_ident_start` from the source. -/
def isIdentStart (c : Char) : Bool := isAsciiAlpha c || c = '_'

/-- `is_ident_char` from the source. -/
def isIdentChar (c : Char) : Bool := isAsciiAlnum c || c = '_'

/-- The placeholder string `"__FQ{n}__"`. -/
def placeholderOf (n : Nat) : Str := strOf "__FQ" ++ (Nat.repr n).data ++ strOf "__"

/-- The scanner of `extract_field_quoted`: replace every
`identifier:"value"` occurrence by a placeholder, appending
`(identifier, value)` to the store.  On a failed match only the current
character is consumed, as in the source.  As in `translateAliasesAux`,
`fuel = cs.length` never runs out because every step consumes at least one
character. -/
def extractFQAux : Nat → Str → List (Str × Str) → Str × List (Str × Str)
  | 0, cs, store => (cs, store)
  | _ + 1, [], store => ([], store)
  | fuel + 1, c :: rest, store =>
    if isIdentStart c then
      match rest.dropWhile isIdentChar with
      | ':' :: '"' :: vrest =>
        match vrest.dropWhile (fun x => x ≠ '"') with
        | '"' :: tail =>
          let ident := c :: rest.takeWhile isIdentChar
          let v := vrest.takeWhile (fun x => x ≠ '"')
          let ph := placeholderOf store.length
          let r := extractFQAux fuel tail (store ++ [(ident, v)])
          (ph ++ r.1, r.2)
        | _ =>
          let r := extractFQAux fuel rest store
          (c :: r.1, r.2)
      | _ =>
        let r := extractFQAux fuel rest store
        (c :: r.1, r.2)
    else
      let r := extractFQAux fuel rest store
      (c :: r.1, r.2)

/-- `extract_field_quoted`: returns the rewritten query and the store of
extracted `(field, value)` pairs. -/
def extractFieldQuoted (q : Str) : Str × List (Str × Str) := extractFQAux q.length q []

/-- Parse the digits of a Rust `usize` literal (nonempty, all ASCII digits). -/
def digitsToNat (l : Str) : Option Nat :=
  if !l.isEmpty && l.all isAsciiDigit then
    some (l.foldl (fun n c => n * 10 + (c.toNat - 48)) 0)
  else none

/-- Rust `str::parse::<usize>`: optional leading `+`, then digits.
(Overflow past `usize::MAX` is not modelled; placeholder indices are tiny.) -/
def parseUsize (l : Str) : Option Nat :=
  match l with
  | '+' :: rest => digitsToNat rest
  | _ => digitsToNat l

/-- `parse_placeholder`: recognize `"__FQ{n}__"`. -/
def parsePlaceholder (tok : Str) : Option Nat :=
  if (strOf "__FQ").isPrefixOf tok && (strOf "__").isSuffixOf tok then
    parseUsize ((tok.drop 4).dropLast.dropLast)
  else none

/-- `placeholder_field_quoted`: resolve a placeholder token against the store. -/
def placeholderFieldQuoted (tok : Str) (store : List (Str × Str)) :
    Option (Str × Str) :=
  (parsePlaceholder tok).bind (fun idx => store.get? idx)

/-- `is_pure_punctuation`: every character is neither alphanumeric nor `_`. -/
def isPurePunctuation (tok : Str) : Bool :=
  tok.all (fun c => !rustIsAlnum c && c ≠ '_')

/-- Split at the first colon, if any. -/
def splitAtColon : Str → Option (Str × Str)
  | [] => none
  | c :: rest =>
    if c = ':' then some ([], rest)
    else (splitAtColon rest).map (fun p => (c :: p.1, p.2))

/-- `split_field`: split an optional `field:` prefix off a token.  The guard
mirrors the source's operator precedence:
`(!field.is_empty() && first_is_ascii_alphabetic) || field.starts_with('_')`. -/
def splitField (tok : Str) : Option Str × Str :=
  match splitAtColon tok with
  | some (field, rest) =>
    if (!field.isEmpty && isAsciiAlpha (field.headD 'a')) || (strOf "_").isPrefixOf field then
      (some field, rest)
    else (none, tok)
  | none => (none, tok)

/-- `trim_trailing_slash_question`: strip trailing `/` and `?` characters. -/
def trimTrailingSlashQuestion (s : Str) : Str :=
  (s.reverse.dropWhile (fun c => c = '/' || c = '?')).reverse

/-- `has_special_chars_requiring_quotes`. -/
def hasSpecialChars (s : Str) : Bool :=
  s.any (fun c => c = '-' || c = '@' || c = ':' || c = '+' || c = '.')

/-- Remove apostrophes (`core.replace('\'', "")` in the source; character 39
is the apostrophe). -/
def removeApostrophes (s : Str) : Str := s.filter (fun c => c ≠ Char.ofNat 39)

/-- `escaped_core.replace('"', "\"\"")`: double every embedded quote. -/
def doubleQuotes (s : Str) : Str :=
  s.foldr (fun c acc => (if c = '"' then ['"', '"'] else [c]) ++ acc) []

/-- Rust `str::contains` with a string pattern: substring containment. -/
def containsSub : Str → Str → Bool
  | needle, [] => needle.isEmpty
  | needle, c :: rest => needle.isPrefixOf (c :: rest) || containsSub needle rest

/-- `will_expand_to_or_group`: would this token, processed as a plain word,
be replaced by a synonym OR-group? -/
def willExpandToOrGroup (expand : Str → Str) (tok : Str) : Bool :=
  if (parsePlaceholder tok).isSome || isPurePunctuation tok then false
  else
    match splitField tok with
    | (some _, _) => false
    | (none, value) =>
      if (strOf "\"").isPrefixOf value && (strOf "\"").isSuffixOf value then false
      else
        let hasW := endsWith '*' value
        let value2 := if hasW then value.dropLast else value
        let core := trimTrailingSlashQuestion value2
        let escaped := removeApostrophes core
        if escaped.isEmpty then false
        else if hasW || hasSpecialChars escaped then false
        else !(expand escaped == escaped)

/-- The body of the token loop of `build_fts_match`, for one token of an
unquoted segment.  `whog` is `will_have_or_groups` for the enclosing
segment; `none` means the token is dropped (`continue` on pure
punctuation). -/
def processToken (expand : Str → Str) (useSyn : Bool) (store : List (Str × Str))
    (whog : Bool) (tok : Str) : Option Str :=
  match placeholderFieldQuoted tok store with
  | some fv => some (fv.1 ++ ':' :: '"' :: fv.2 ++ ['"'])
  | none =>
    if isPurePunctuation tok then none
    else
      let fv := splitField tok
      let field := fv.1
      let value := fv.2
      if (strOf "\"").isPrefixOf value && (strOf "\"").isSuffixOf value
          && 2 ≤ value.length then
        some ((match field with | some f => f ++ [':'] | none => []) ++ value)
      else
        let hasW := endsWith '*' value
        let value2 := if hasW then value.dropLast else value
        let core := trimTrailingSlashQuestion value2
        let escaped0 := removeApostrophes core
        let escaped := if escaped0.isEmpty && hasW then ['.'] else escaped0
        let needsQ := hasSpecialChars escaped
        let finalTok :=
          if needsQ then '"' :: doubleQuotes escaped ++ ['"']
          else if !hasW && 4 ≤ escaped.length && !whog then escaped ++ ['*']
          else if hasW then escaped ++ ['*']
          else escaped
        match field with
        | some f => some (f ++ ':' :: finalTok)
        | none =>
          if useSyn && !hasW && !needsQ && !finalTok.isEmpty then
            some (expand finalTok)
          else some finalTok

/-- Process one unquoted segment of `build_fts_match`: tokenize, compute
`will_have_or_groups`, map the tokens, and join with `" AND "` when an
OR-group was produced, else with spaces.  Returns `none` when no token
survives (the source pushes nothing). -/
def processPart (expand : Str → Str) (useSyn : Bool) (store : List (Str × Str))
    (part : Str) : Option Str :=
  let tokens := splitWs part
  let whog := useSyn && tokens.any (willExpandToOrGroup expand)
  let mapped := tokens.filterMap (processToken expand useSyn store whog)
  if mapped.isEmpty then none
  else
    let hasOr := mapped.any (fun t => t.contains '(' && containsSub (strOf " OR ") t)
    if hasOr then some (List.intercalate (strOf " AND ") mapped)
    else some (List.intercalate (strOf " ") mapped)

/-- `build_fts_match` from `query.rs`: alias translation, field-quoted
extraction, quote-splitting, token mapping, and joining.  `expand` is the
`SynonymLookup::expand` method (instantiated with `synExpand` for the real
table). -/
def buildFtsMatch (q : Option Str) (useSyn : Bool) (expand : Str → Str) : Str :=
  match q with
  | none => []
  | some q0 =>
    let q1 := rustTrim q0
    if q1.isEmpty then []
    else
      let q2 := translateAliases q1
      let es := extractFieldQuoted q2
      let parts := es.1.splitOn '"'
      let out := parts.enum.filterMap (fun ip =>
        if ip.1 % 2 == 1 then some ('"' :: ip.2 ++ ['"'])
        else processPart expand useSyn es.2 ip.2)
      rustTrim (List.intercalate (strOf " ") out)

/-! ### Score fusion (`src/fts/hybrid.rs`)

`f64` ranks are modelled by `F64` (a rational or a non-finite value); cosine
distances returned by the vector table are finite and modelled as rationals
directly. -/

/-- A model of `f64` where the source inspects finiteness. -/
inductive F64 where
  | fin (q : ℚ)
  | nan
  | inf
  | neginf
deriving DecidableEq

/-- Rust `f64::is_finite`. -/
def F64.isFinite : F64 → Bool
  | .fin _ => true
  | _ => false

/-- `bm25_rank_to_score`: negate the (negative) BM25 rank, clamp at 0 and for
non-finite ranks, then normalize by `x / (1 + x)`. -/
def bm25RankToScore (rank : F64) : ℚ :=
  let positiveRank : ℚ := match rank with
    | .fin q => max (-q) 0
    | _ => 0
  positiveRank / (1 + positiveRank)

/-- `cosine_distance_to_score`: `(1 - distance).max(0)`. -/
def cosineDistanceToScore (distance : ℚ) : ℚ := max (1 - distance) 0

/-- `MIN_SCORE` from `config::hybrid`. -/
def MIN_SCORE : ℚ := 1 / 10

/-- `EMAIL_VECTOR_WEIGHT` from `config::hybrid`. -/
def EMAIL_VECTOR_WEIGHT : ℚ := 7 / 10

/-- `EMAIL_TEXT_WEIGHT` from `config::hybrid`. -/
def EMAIL_TEXT_WEIGHT : ℚ := 3 / 10

/-- A merged result of `merge_results` (`HybridResult` in the source). -/
structure HybridResult where
  rowid : Int
  finalScore : ℚ
  textScore : ℚ
  vectorScore : ℚ
deriving DecidableEq

/-- The text score stored in the candidate map for a rowid: the score of its
last occurrence in `text_results` (the `and_modify` overwrite semantics),
or `none` when the rowid does not occur. -/
def textScoreAt (text : List (Int × F64)) (r : Int) : Option ℚ :=
  (text.reverse.find? (fun p => p.1 == r)).map (fun p => bm25RankToScore p.2)

/-- The vector score stored in the candidate map for a rowid, analogously. -/
def vecScoreAt (vec : List (Int × ℚ)) (r : Int) : Option ℚ :=
  (vec.reverse.find? (fun p => p.1 == r)).map (fun p => cosineDistanceToScore p.2)

/-- The content of the `HashMap<i64, HybridCandidate>` at a rowid:
`(text_score, vector_score)` with an absent side contributing `0.0`, and
`none` when the rowid is in neither candidate list. -/
def candScores (text : List (Int × F64)) (vec : List (Int × ℚ)) (r : Int) :
    Option (ℚ × ℚ) :=
  match textScoreAt text r, vecScoreAt vec r with
  | none, none => none
  | t, v => some (t.getD 0, v.getD 0)

/-- `order` is an admissible `HashMap::into_values` iteration order: it lists
every key of the candidate map exactly once.  Rust leaves the order
unspecified (randomized hasher), so the model quantifies over it. -/
def EnumeratesKeys (order : List Int) (text : List (Int × F64))
    (vec : List (Int × ℚ)) : Prop :=
  order.Nodup ∧ ∀ r : Int, r ∈ order ↔ (candScores text vec r).isSome

/-- Stable descending insertion by `finalScore`: an element is placed before
the first element whose score is not larger, so elements with equal scores
keep their relative order.  This is the unique stable sort result, hence
the model of Rust's stable `sort_by` with the descending comparator. -/
def insertHR (a : HybridResult) : List HybridResult → List HybridResult
  | [] => [a]
  | b :: bs =>
    if b.finalScore ≤ a.finalScore then a :: b :: bs
    else b :: insertHR a bs

/-- Stable sort by `finalScore` descending (`results.sort_by(...)`). -/
def sortByFinalDesc (l : List HybridResult) : List HybridResult :=
  l.foldr insertHR []

/-- `merge_results`: build the candidate map, iterate it in the (hash)
`order`, compute final scores, filter by `MIN_SCORE`, stable-sort by final
score descending, truncate to `limit`. -/
def mergeResults (text : List (Int × F64)) (vec : List (Int × ℚ))
    (vectorWeight textWeight : ℚ) (limit : Nat) (order : List Int) :
    List HybridResult :=
  let items := order.filterMap (fun r =>
    (candScores text vec r).map (fun ts_vs =>
      { rowid := r,
        finalScore := vectorWeight * ts_vs.2 + textWeight * ts_vs.1,
        textScore := ts_vs.1,
        vectorScore := ts_vs.2 }))
  let kept := items.filter (fun h => MIN_SCORE ≤ h.finalScore)
  (sortByFinalDesc kept).take limit

/-! ### JSON values (`serde_json::Value`) -/

/-- Model of `serde_json::Value`.  JSON numbers are split into integers
(representable as `i64`) and floats (finite, as JSON has no infinities). -/
inductive JVal where
  | null
  | bool (b : Bool)
  | int (n : Int)
  | float (q : ℚ)
  | str (s : Str)
  | arr (items : List JVal)
  | obj (fields : List (Str × JVal))

/-- `Value::is_null`. -/
def JVal.isNull : JVal → Bool
  | .null => true
  | _ => false

/-- `Value::as_i64` (floats and big unsigned values yield `None`). -/
def JVal.asI64 : JVal → Option Int
  | .int n => some n
  | _ => none

/-- `Value::as_f64` (both integer and float JSON numbers convert). -/
def JVal.asF64 : JVal → Option ℚ
  | .int n => some (n : ℚ)
  | .float q => some q
  | _ => none

/-- `Value::as_str`. -/
def JVal.asStr : JVal → Option Str
  | .str s => some s
  | _ => none

/-- `Value::as_bool`. -/
def JVal.asBool : JVal → Option Bool
  | .bool b => some b
  | _ => none

/-- `Value::get` with a string key (object field lookup). -/
def JVal.get : JVal → Str → Option JVal
  | .obj fields, key => (fields.find? (fun p => p.1 == key)).map (fun p => p.2)
  | _, _ => none

/-- `Value::as_array`. -/
def JVal.asArr : JVal → Option (List JVal)
  | .arr items => some items
  | _ => none

/-! ### Embedding text preparation (`src/embeddings/text_prep.rs`) -/

/-- The loop of `truncate_words`: walk the text char by char, incrementing
the word count at every whitespace character and cutting just before the
whitespace character that makes the count reach `maxWords`. -/
def truncateWordsAux : Str → Nat → Nat → Str
  | [], _, _ => []
  | c :: rest, words, maxW =>
    if rustIsWs c then
      if maxW ≤ words + 1 then []
      else c :: truncateWordsAux rest (words + 1) maxW
    else c :: truncateWordsAux rest words maxW

/-- `truncate_words`: truncate to at most `maxWords` words and trim. -/
def truncateWords (text : Str) (maxWords : Nat) : Str :=
  rustTrim (truncateWordsAux text 0 maxWords)

/-- `prepare_email_text`: duplicated subject, from/to headers (empty header
lines omitted), blank line, then the first 150 words of the body. -/
def prepareEmailText (subject from_ to_ body : Str) : Str :=
  let subject := rustTrim subject
  let from_ := rustTrim from_
  let to_ := rustTrim to_
  let body := rustTrim body
  let parts :=
    (if subject.isEmpty then []
     else [strOf "Subject: " ++ subject, strOf "Subject: " ++ subject]) ++
    (if from_.isEmpty then [] else [strOf "From: " ++ from_]) ++
    (if to_.isEmpty then [] else [strOf "To: " ++ to_])
  let header := List.intercalate (strOf "\n") parts
  let bodyTruncated := truncateWords body 150
  if bodyTruncated.isEmpty then header
  else if header.isEmpty then bodyTruncated
  else header ++ strOf "\n\n" ++ bodyTruncated

/-- `prepare_memory_text`: `"role: first 200 words of content"`, or just the
truncated content when the role is empty. -/
def prepareMemoryText (role content : Str) : Str :=
  let role := rustTrim role
  let content := rustTrim content
  let contentTruncated := truncateWords content 200
  if role.isEmpty then contentTruncated
  else role ++ strOf ": " ++ contentTruncated

/-! ### Indexer state (`src/fts/db.rs` / `src/fts/memory_db.rs`)

SQLite tables are modelled as association lists keyed by rowid.  The state
is parametric in the type `V` of stored vectors; the embedding engine is an
optional partial function from the prepared text to a vector (an `Err`
from `engine.embed` skips the vector for that document only). -/

/-- One `messages_fts` row (text columns). -/
structure EmailDoc where
  msgId : Str
  subject : Str
  from_ : Str
  to_ : Str
  cc : Str
  bcc : Str
  body : Str
deriving DecidableEq

/-- One `message_meta` row. -/
structure MessageMetaRow where
  dateMs : Int
  hasAttachments : Int
  parsedIcsAttachments : Str
deriving DecidableEq

/-- The email database: `message_ids` (id map), the rowid allocator, and the
`messages_fts` / `message_meta` / `messages_vec` tables. -/
structure EmailState (V : Type) where
  ids : List (Str × Int)
  nextRowid : Int
  fts : List (Int × EmailDoc)
  meta : List (Int × MessageMetaRow)
  vec : List (Int × V)
deriving DecidableEq

/-- A fresh email database (SQLite assigns rowid 1 first). -/
def emptyEmailState (V : Type) : EmailState V := ⟨[], 1, [], [], []⟩

/-- `row.get(k).and_then(|v| v.as_str())`. -/
def jgetStr (row : JVal) (k : String) : Option Str := (row.get (strOf k)).bind JVal.asStr

/-- String field with the `unwrap_or("")` default. -/
def jgetStrD (row : JVal) (k : String) : Str := (jgetStr row k).getD []

/-- The `from_` field of an indexed row, with the source's alias fallbacks
`from_` / `from` / `author`. -/
def emailFrom (row : JVal) : Str :=
  ((jgetStr row "from_" <|> jgetStr row "from") <|> jgetStr row "author").getD []

/-- The `to_` field with the alias fallback `to_` / `to`. -/
def emailTo (row : JVal) : Str := (jgetStr row "to_" <|> jgetStr row "to").getD []

/-- Does the row carry a usable external id: a `msgId` field that is a
nonempty string? -/
def hasValidMsgId (row : JVal) : Bool :=
  match jgetStr row "msgId" with
  | some m => !m.isEmpty
  | none => false

/-- The body of the `index_batch` loop for one row: skip rows without a
usable `msgId`, count duplicates via the id map (`INSERT OR IGNORE`),
otherwise allocate a rowid and insert the text, meta and (if the engine
yields one) vector rows.  Returns the new state and the
`(inserted, skipped_duplicates)` deltas. -/
def indexRow {V : Type} (engine : Option (Str → Option V)) (st : EmailState V)
    (row : JVal) : EmailState V × Int × Int :=
  match jgetStr row "msgId" with
  | none => (st, 0, 0)
  | some m =>
    if m.isEmpty then (st, 0, 0)
    else if (st.ids.lookup m).isSome then (st, 0, 1)
    else
      let rid := st.nextRowid
      let subject := jgetStrD row "subject"
      let from_ := emailFrom row
      let to_ := emailTo row
      let cc := jgetStrD row "cc"
      let bcc := jgetStrD row "bcc"
      let body := jgetStrD row "body"
      let dateMs := ((row.get (strOf "dateMs")).bind JVal.asI64).getD 0
      let hasAtt : Int :=
        match (row.get (strOf "hasAttachments")).bind JVal.asBool with
        | some b => if b then 1 else 0
        | none => 0
      let parsedIcs := jgetStrD row "parsedIcsAttachments"
      let newVec :=
        match engine with
        | some e =>
          match e (prepareEmailText subject from_ to_ body) with
          | some emb => st.vec ++ [(rid, emb)]
          | none => st.vec
        | none => st.vec
      ({ ids := st.ids ++ [(m, rid)],
         nextRowid := rid + 1,
         fts := st.fts ++ [(rid, ⟨m, subject, from_, to_, cc, bcc, body⟩)],
         meta := st.meta ++ [(rid, ⟨dateMs, hasAtt, parsedIcs⟩)],
         vec := newVec }, 1, 0)

/-- `index_batch`: fold `indexRow` over the batch inside one transaction,
accumulating the `(inserted, skipped_duplicates)` counters. -/
def indexBatch {V : Type} (engine : Option (Str → Option V)) (st : EmailState V)
    (rows : List JVal) : EmailState V × Int × Int :=
  rows.foldl (fun acc row =>
    let r := indexRow engine acc.1 row
    (r.1, acc.2.1 + r.2.1, acc.2.2 + r.2.2)) (st, 0, 0)

/-- One `memory_fts` row. -/
structure MemoryDoc where
  memId : Str
  role : Str
  content : Str
  sessionId : Str
deriving DecidableEq

/-- One `memory_meta` row. -/
structure MemoryMetaRow where
  dateMs : Int
  sessionId : Str
  turnIndex : Int
deriving DecidableEq

/-- The memory database, mirroring `EmailState`. -/
structure MemoryState (V : Type) where
  ids : List (Str × Int)
  nextRowid : Int
  fts : List (Int × MemoryDoc)
  meta : List (Int × MemoryMetaRow)
  vec : List (Int × V)
deriving DecidableEq

/-- A fresh memory database. -/
def emptyMemoryState (V : Type) : MemoryState V := ⟨[], 1, [], [], []⟩

/-- Does the row carry a nonempty string `memId`? -/
def hasValidMemId (row : JVal) : Bool :=
  match jgetStr row "memId" with
  | some m => !m.isEmpty
  | none => false

/-- The body of the `memory_index_batch` loop for one row (mirror of
`indexRow` over `memId` / `role` / `content` / `sessionId`). -/
def memoryIndexRow {V : Type} (engine : Option (Str → Option V))
    (st : MemoryState V) (row : JVal) : MemoryState V × Int × Int :=
  match jgetStr row "memId" with
  | none => (st, 0, 0)
  | some m =>
    if m.isEmpty then (st, 0, 0)
    else if (st.ids.lookup m).isSome then (st, 0, 1)
    else
      let rid := st.nextRowid
      let role := jgetStrD row "role"
      let content := jgetStrD row "content"
      let sessionId := jgetStrD row "sessionId"
      let dateMs := ((row.get (strOf "dateMs")).bind JVal.asI64).getD 0
      let turnIndex := ((row.get (strOf "turnIndex")).bind JVal.asI64).getD 0
      let newVec :=
        match engine with
        | some e =>
          match e (prepareMemoryText role content) with
          | some emb => st.vec ++ [(rid, emb)]
          | none => st.vec
        | none => st.vec
      ({ ids := st.ids ++ [(m, rid)],
         nextRowid := rid + 1,
         fts := st.fts ++ [(rid, ⟨m, role, content, sessionId⟩)],
         meta := st.meta ++ [(rid, ⟨dateMs, sessionId, turnIndex⟩)],
         vec := newVec }, 1, 0)

/-- `memory_index_batch`. -/
def memoryIndexBatch {V : Type} (engine : Option (Str → Option V))
    (st : MemoryState V) (rows : List JVal) : MemoryState V × Int × Int :=
  rows.foldl (fun acc row =>
    let r := memoryIndexRow engine acc.1 row
    (r.1, acc.2.1 + r.2.1, acc.2.2 + r.2.2)) (st, 0, 0)

/-! ### Date parameter parsing (`parse_date_param` in `src/fts/db.rs`)

The two library parsers the source delegates to — chrono's
`DateTime::parse_from_rfc3339` (returning `timestamp_millis`) and Rust's
`str::parse::<f64>` — are external crates, modelled as abstract functions
`pRfc` and `pF64`. -/

/-- `i64::MIN`. -/
def I64_MIN : Int := -(2 ^ 63)

/-- `i64::MAX`. -/
def I64_MAX : Int := 2 ^ 63 - 1

/-- Truncate a rational toward zero (Rust float-to-int cast direction). -/
def truncRat (q : ℚ) : Int := if 0 ≤ q then ⌊q⌋ else ⌈q⌉

/-- Rust's saturating `f64 as i64` cast. -/
def f64AsI64 : F64 → Int
  | .fin q => max I64_MIN (min I64_MAX (truncRat q))
  | .nan => 0
  | .inf => I64_MAX
  | .neginf => I64_MIN

/-- Outcome of `parse_date_param`: `ok` with an optional timestamp, or the
explicit `bail!("Invalid date format: ...")` error. -/
inductive DateParse where
  | ok (ts : Option Int)
  | invalid
deriving DecidableEq

/-- The `Z`-suffix normalization: `"...Z"` becomes `"...+00:00"`. -/
def zNormalize (s : Str) : Str :=
  if endsWith 'Z' s then s.dropLast ++ strOf "+00:00" else s

/-- `parse_date_param`: null → none; `as_i64` → that integer; `as_f64` →
saturating cast; non-strings → none; strings: trim, empty → none, then the
RFC 3339 parser on the `Z`-normalized string, then the `f64` parser, and
finally the explicit error. -/
def parseDateParam (pRfc : Str → Option Int) (pF64 : Str → Option F64)
    (v : JVal) : DateParse :=
  if v.isNull then .ok none
  else
    match v.asI64 with
    | some i => .ok (some i)
    | none =>
      match v.asF64 with
      | some q => .ok (some (f64AsI64 (.fin q)))
      | none =>
        match v.asStr with
        | none => .ok none
        | some s0 =>
          let s := rustTrim s0
          if s.isEmpty then .ok none
          else
            let s1 := zNormalize s
            match pRfc s1 with
            | some ms => .ok (some ms)
            | none =>
              match pF64 s1 with
              | some f => .ok (some (f64AsI64 f))
              | none => .invalid

/-- `params.get("ignoreDate").and_then(|v| v.as_bool()).unwrap_or(false)`. -/
def getIgnoreDate (params : JVal) : Bool :=
  ((params.get (strOf "ignoreDate")).bind JVal.asBool).getD false

/-- The `from_ts` computation of the hybrid `search` path
(`src/fts/db.rs:496-500`):
`params.get("from").and_then(|v| parse_date_param(v).ok().flatten())`.
A parse error is converted to `None` by `.ok()` — it cannot reach the
response. -/
def hybridFromTs (pRfc : Str → Option Int) (pF64 : Str → Option F64)
    (params : JVal) : Option Int :=
  if getIgnoreDate params then none
  else (params.get (strOf "from")).bind (fun v =>
    match parseDateParam pRfc pF64 v with
    | .ok t => t
    | .invalid => none)

/-- The `to_ts` computation of the hybrid `search` path, analogously. -/
def hybridToTs (pRfc : Str → Option Int) (pF64 : Str → Option F64)
    (params : JVal) : Option Int :=
  if getIgnoreDate params then none
  else (params.get (strOf "to")).bind (fun v =>
    match parseDateParam pRfc pF64 v with
    | .ok t => t
    | .invalid => none)

/-- The `from` date filter of `search_fts_only` (and of the memory mirrors),
where `parse_date_param(from_v)?` propagates the error to the response. -/
def ftsOnlyFromTs (pRfc : Str → Option Int) (pF64 : Str → Option F64)
    (params : JVal) : DateParse :=
  if getIgnoreDate params then .ok none
  else
    match params.get (strOf "from") with
    | none => .ok none
    | some v => parseDateParam pRfc pF64 v

/-- The `to` date filter of `search_fts_only`, analogously. -/
def ftsOnlyToTs (pRfc : Str → Option Int) (pF64 : Str → Option F64)
    (params : JVal) : DateParse :=
  if getIgnoreDate params then .ok none
  else
    match params.get (strOf "to") with
    | none => .ok none
    | some v => parseDateParam pRfc pF64 v

/-- Outcome of the parameter handling of `query_by_date_range`: parse errors
and the `bail!("from and to parameters are required")` on missing values
both propagate to the response. -/
inductive QbdrCheck where
  | ok (fromTs toTs : Int)
  | errRequired
  | errInvalid
deriving DecidableEq

/-- The parameter handling of `query_by_date_range`
(`src/fts/db.rs:1015-1016`). -/
def queryByDateRangeCheck (pRfc : Str → Option Int) (pF64 : Str → Option F64)
    (fromV toV : JVal) : QbdrCheck :=
  match parseDateParam pRfc pF64 fromV with
  | .invalid => .errInvalid
  | .ok none => .errRequired
  | .ok (some f) =>
    match parseDateParam pRfc pF64 toV with
    | .invalid => .errInvalid
    | .ok none => .errRequired
    | .ok (some t) => .ok f t

/-! ### Rebuild batches (`rebuild_embeddings_batch` /
`rebuild_memory_embeddings_batch`)

The two functions are verbatim mirrors over different text columns; the
model factors the shared loop into `rebuildBatchCore`, instantiated with
the email and memory text preparation. -/

/-- `DELETE FROM vec WHERE rowid = rid` followed by `INSERT`. -/
def vecDeleteInsert {V : Type} (vec : List (Int × V)) (rid : Int) (emb : V) :
    List (Int × V) :=
  (vec.filter (fun p => p.1 ≠ rid)) ++ [(rid, emb)]

/-- Stable insertion by ascending rowid. -/
def insertRowAsc {R : Type} (x : Int × R) : List (Int × R) → List (Int × R)
  | [] => [x]
  | y :: ys => if x.1 ≤ y.1 then x :: y :: ys else y :: insertRowAsc x ys

/-- `ORDER BY rowid ASC` (rowids are distinct, so the order is unique). -/
def sortRowsAsc {R : Type} (l : List (Int × R)) : List (Int × R) :=
  l.foldr insertRowAsc []

/-- SQL `LIMIT k`: a negative limit means no limit in SQLite. -/
def sqlLimit {α : Type} (k : Int) (l : List α) : List α :=
  if k < 0 then l else l.take k.toNat

/-- `SELECT ... WHERE rowid > last ORDER BY rowid ASC LIMIT batch_size`. -/
def selectBatch {R : Type} (fts : List (Int × R)) (lastRowid batchSize : Int) :
    List (Int × R) :=
  sqlLimit batchSize (sortRowsAsc (fts.filter (fun p => lastRowid < p.1)))

/-- The shared loop of the two rebuild-batch functions: fetch the batch; if
empty return `(last_rowid, 0, 0, true)`; otherwise embed each row
(delete-then-insert the vec row on success, skip with a warning on
failure), track the last fetched rowid, and report
`done = fetched < batch_size`. -/
def rebuildBatchCore {V R : Type} (textOf : R → Str) (engine : Str → Option V)
    (fts : List (Int × R)) (vec : List (Int × V)) (lastRowid batchSize : Int) :
    List (Int × V) × Int × Int × Int × Bool :=
  let batch := selectBatch fts lastRowid batchSize
  if batch.isEmpty then (vec, lastRowid, 0, 0, true)
  else
    let step := batch.foldl (fun (acc : List (Int × V) × Int × Int) p =>
      match engine (textOf p.2) with
      | some emb => (vecDeleteInsert acc.1 p.1 emb, p.1, acc.2.2 + 1)
      | none => (acc.1, p.1, acc.2.2)) (vec, lastRowid, 0)
    (step.1, step.2.1, (batch.length : Int), step.2.2,
      decide ((batch.length : Int) < batchSize))

/-- `rebuild_embeddings_batch` over the email database; returns the updated
state and `(last_rowid, processed, embedded, done)`. -/
def rebuildEmbeddingsBatch {V : Type} (engine : Str → Option V)
    (st : EmailState V) (lastRowid batchSize : Int) :
    EmailState V × Int × Int × Int × Bool :=
  let r := rebuildBatchCore
    (fun d => prepareEmailText d.subject d.from_ d.to_ d.body)
    engine st.fts st.vec lastRowid batchSize
  ({ st with vec := r.1 }, r.2)

/-- `rebuild_memory_embeddings_batch` over the memory database. -/
def rebuildMemoryEmbeddingsBatch {V : Type} (engine : Str → Option V)
    (st : MemoryState V) (lastRowid batchSize : Int) :
    MemoryState V × Int × Int × Int × Bool :=
  let r := rebuildBatchCore
    (fun d => prepareMemoryText d.role d.content)
    engine st.fts st.vec lastRowid batchSize
  ({ st with vec := r.1 }, r.2)

/-! ### `memory_read_by_timestamp` and the `memoryRead` handler -/

/-- One row of the `memory_fts ⋈ memory_meta` join used by
`memory_read_by_timestamp`. -/
structure MemEntryOut where
  memId : Str
  role : Str
  content : Str
  sessionId : Str
  dateMs : Int
deriving DecidableEq

/-- Stable insertion by ascending `dateMs`. -/
def insertByDateAsc (x : MemEntryOut) : List MemEntryOut → List MemEntryOut
  | [] => [x]
  | y :: ys => if x.dateMs ≤ y.dateMs then x :: y :: ys else y :: insertByDateAsc x ys

/-- `ORDER BY meta.dateMs ASC` (ties ordered arbitrarily by SQLite; the
model picks the stable order — every claim proved about it is invariant under
reordering of ties). -/
def sortByDateAsc (l : List MemEntryOut) : List MemEntryOut :=
  l.foldr insertByDateAsc []

/-- `memory_read_by_timestamp`: entries with
`dateMs ∈ [ts - tol, ts + tol]`, ordered by `dateMs` ascending, `LIMIT 50`. -/
def memoryReadByTimestamp (rows : List MemEntryOut) (timestampMs toleranceMs : Int) :
    List MemEntryOut :=
  (sortByDateAsc (rows.filter (fun r =>
    timestampMs - toleranceMs ≤ r.dateMs && r.dateMs ≤ timestampMs + toleranceMs))).take 50

/-- A `memoryRead` response: `{id, error}` or `{id, result}`. -/
inductive MemoryReadResp where
  | err (id : Str) (msg : Str)
  | ok (id : Str) (entries : List MemEntryOut)
deriving DecidableEq

/-- `DEFAULT_TOLERANCE_MS` from the `memoryRead` handler. -/
def DEFAULT_TOLERANCE_MS : Int := 600000

/-- The `memoryRead` arm of `handle_read_request` (`src/main.rs:464-478`):
`timestampMs` defaulting to 0 (then rejected), `toleranceMs` defaulting to
600 000 ms. -/
def handleMemoryRead (rows : List MemEntryOut) (msgId : Str) (params : JVal) :
    MemoryReadResp :=
  let timestampMs := ((params.get (strOf "timestampMs")).bind JVal.asI64).getD 0
  let toleranceMs :=
    ((params.get (strOf "toleranceMs")).bind JVal.asI64).getD DEFAULT_TOLERANCE_MS
  if timestampMs = 0 then
    .err msgId (strOf "Missing or invalid timestampMs parameter")
  else .ok msgId (memoryReadByTimestamp rows timestampMs toleranceMs)

/-! ### Embedding engine (`src/embeddings/engine.rs`)

The tokenizer and the BERT forward pass live in external crates
(`tokenizers`, `candle`); they are modelled by an abstract function
producing, for a text, the per-token hidden states and the attention mask
(or `none` for a tokenizer/forward failure).  The in-repo post-processing —
the empty-input short-circuit, masked mean pooling and L2 normalization —
is modelled concretely over `ℝ`. -/

/-- `EMBEDDING_DIMS` from `config::embedding`. -/
def EMBEDDING_DIMS : Nat := 384

/-- The hidden states and attention mask produced by the tokenizer + BERT
forward pass for one input (already truncated to `MAX_TOKENS`). -/
def TokOutput : Type :=
  Σ L : ℕ, (Fin L → Fin EMBEDDING_DIMS → ℝ) × (Fin L → ℝ)

/-- The 384-dimensional zero vector returned for empty/whitespace input. -/
def zeroVec : Fin EMBEDDING_DIMS → ℝ := fun _ => 0

/-- `mean_pooling`: `sum(H * mask) / clamp(sum(mask), 1e-9, MAX)` per
dimension (the upper clamp is vacuous and not modelled). -/
noncomputable def meanPooling (L : ℕ) (H : Fin L → Fin EMBEDDING_DIMS → ℝ)
    (mask : Fin L → ℝ) : Fin EMBEDDING_DIMS → ℝ :=
  fun j => (∑ i, mask i * H i j) / max (∑ i, mask i) (1 / 10 ^ 9)

/-- The squared L2 norm of a 384-vector. -/
noncomputable def normSq (v : Fin EMBEDDING_DIMS → ℝ) : ℝ := ∑ k, (v k) ^ 2

/-- `l2_normalize`: divide by `clamp(sqrt(sum of squares), 1e-12, MAX)`. -/
noncomputable def l2Normalize (v : Fin EMBEDDING_DIMS → ℝ) : Fin EMBEDDING_DIMS → ℝ :=
  fun j => v j / max (Real.sqrt (normSq v)) (1 / 10 ^ 12)

/-- `EmbeddingEngine::embed`: return the zero vector for empty/whitespace
input, otherwise run the (abstract) tokenizer + forward pass, mean-pool and
L2-normalize.  `none` models the propagated tokenizer/forward error. -/
noncomputable def engineEmbed (forward : Str → Option TokOutput) (text : Str) :
    Option (Fin EMBEDDING_DIMS → ℝ) :=
  if (rustTrim text).isEmpty then some zeroVec
  else (forward text).map (fun o => l2Normalize (meanPooling o.1 o.2.1 o.2.2))

/-- The `escaped_core` computed by `processToken` for a fieldless token:
strip one trailing `*`, trailing `/` and `?`, apostrophes, and substitute
`"."` for an empty core with an explicit wildcard. -/
def tokenEscapedCore (tok : Str) : Str :=
  let hasW := endsWith '*' tok
  let value2 := if hasW then tok.dropLast else tok
  let escaped0 := removeApostrophes (trimTrailingSlashQuestion value2)
  if escaped0.isEmpty && hasW then ['.'] else escaped0

/-! ## Supporting lemmas -/

/-- Dropping a predicate-satisfying prefix block skips it entirely. -/
theorem dropWhile_all_append {p : Char → Bool} (ws l : Str)
    (h : ∀ c ∈ ws, p c = true) : (ws ++ l).dropWhile p = l.dropWhile p := by
  induction ws with
  | nil => rfl
  | cons c cs ih =>
    simp only [List.cons_append, List.dropWhile_cons, h c (by simp)]
    exact ih (fun d hd => h d (by simp [hd]))

/-- A successful `aliasAt` consumes at least one character. -/
theorem aliasAt_some_length {nd cs tail : Str} (h : aliasAt nd cs = some tail) :
    tail.length < cs.length := by
  unfold aliasAt at h
  split at h
  · split at h
    · rename_i t heq
      injection h with h
      subst h
      have h2 := (List.dropWhile_sublist (p := isAsciiWs)
        (l := cs.drop nd.length)).length_le
      rw [heq] at h2
      have h3 := (List.drop_sublist nd.length cs).length_le
      simp at h2
      omega
    · exact absurd h (by simp)
  · exact absurd h (by simp)

/-- The fuel of `translateAliasesAux` is irrelevant as long as it is at least
the length of the input (every step consumes at least one character). -/
theorem translateAliasesAux_fuel :
    ∀ f : ℕ, ∀ b : Bool, ∀ cs : Str, cs.length ≤ f →
      translateAliasesAux f b cs = translateAliasesAux cs.length b cs := by
  intro f
  induction f using Nat.strong_induction_on with
  | _ f IH =>
    intro b cs hf
    match f, cs with
    | 0, cs =>
      have hnil : cs = [] := by
        cases cs with
        | nil => rfl
        | cons c r => simp at hf
      subst hnil
      rfl
    | f + 1, [] => rfl
    | f + 1, c :: rest =>
      have hr : rest.length ≤ f := by simpa using hf
      show translateAliasesAux (f + 1) b (c :: rest) =
        translateAliasesAux (rest.length + 1) b (c :: rest)
      rw [translateAliasesAux, translateAliasesAux]
      cases b with
      | true =>
        simp only [if_true]
        rw [IH f (by omega) _ rest hr]
      | false =>
        simp only [Bool.false_eq_true, if_false]
        cases haf : aliasAt (strOf "from") (c :: rest) with
        | some tail =>
          have htl : tail.length ≤ rest.length := by
            have := aliasAt_some_length haf
            simp at this
            omega
          dsimp only
          rw [IH f (by omega) false tail (le_trans htl hr),
            IH rest.length (by omega) false tail htl]
        | none =>
          cases hat : aliasAt (strOf "to") (c :: rest) with
          | some tail =>
            have htl : tail.length ≤ rest.length := by
              have := aliasAt_some_length hat
              simp at this
              omega
            dsimp only
            rw [IH f (by omega) false tail (le_trans htl hr),
              IH rest.length (by omega) false tail htl]
          | none =>
            dsimp only
            rw [IH f (by omega) _ rest hr]

/-- `aliasAt` succeeds on a case-insensitive needle match followed by
whitespace and a colon. -/
theorem aliasAt_of_match (nd pre ws post : Str)
    (h4 : pre.map asciiLower = nd.map asciiLower)
    (hws : ∀ c ∈ ws, isAsciiWs c = true)
    (hcolon : isAsciiWs ':' = false) :
    aliasAt nd (pre ++ ws ++ ':' :: post) = some post := by
  have hlen : pre.length = nd.length := by
    have := congrArg List.length h4
    simpa using this
  unfold aliasAt
  rw [List.append_assoc, List.take_left' hlen, h4]
  simp only [if_pos rfl]
  have hdrop : (pre ++ (ws ++ ':' :: post)).drop nd.length = ws ++ ':' :: post := by
    rw [← hlen]
    exact List.drop_left _ _
  rw [hdrop, dropWhile_all_append ws (':' :: post) hws]
  simp [List.dropWhile_cons, hcolon]

/-- The `from:` alias rewrite at a word boundary: any case variant of
`from`, optional ASCII whitespace, then a colon, is replaced by `from_:`
and scanning continues after the colon. -/
theorem translateAliases_from (pre ws post : Str)
    (h4 : pre.map asciiLower = strOf "from")
    (hws : ∀ c ∈ ws, isAsciiWs c = true) :
    translateAliases (pre ++ ws ++ ':' :: post) =
      strOf "from_:" ++ translateAliases post := by
  have haa : aliasAt (strOf "from") (pre ++ ws ++ ':' :: post) = some post := by
    have := aliasAt_of_match (strOf "from") pre ws post (by simpa using h4) hws (by decide)
    simpa using this
  have hpre : ∃ c r, pre = c :: r := by
    cases pre with
    | nil => simp [strOf] at h4
    | cons c r => exact ⟨c, r, rfl⟩
  obtain ⟨c, r, rfl⟩ := hpre
  show translateAliasesAux ((c :: r) ++ ws ++ ':' :: post).length false
      ((c :: r) ++ ws ++ ':' :: post) = _
  rw [show (c :: r) ++ ws ++ ':' :: post = c :: (r ++ ws ++ ':' :: post) by simp,
    show (c :: (r ++ ws ++ ':' :: post)).length = (r ++ ws ++ ':' :: post).length + 1 by simp]
  rw [translateAliasesAux]
  simp only [Bool.false_eq_true, if_false]
  rw [show c :: (r ++ ws ++ ':' :: post) = (c :: r) ++ ws ++ ':' :: post by simp, haa]
  dsimp only
  congr 1
  rw [translateAliases]
  exact translateAliasesAux_fuel _ _ _ (by simp; omega)

/-- The `to:` alias rewrite at a word boundary, analogously (the scanner's
`from` attempt fails because the first character lowercases to `t`). -/
theorem translateAliases_to (pre ws post : Str)
    (h4 : pre.map asciiLower = strOf "to")
    (hws : ∀ c ∈ ws, isAsciiWs c = true) :
    translateAliases (pre ++ ws ++ ':' :: post) =
      strOf "to_:" ++ translateAliases post := by
  have haa : aliasAt (strOf "to") (pre ++ ws ++ ':' :: post) = some post := by
    have := aliasAt_of_match (strOf "to") pre ws post (by simpa using h4) hws (by decide)
    simpa using this
  have hpre : ∃ c r, pre = c :: r := by
    cases pre with
    | nil => simp [strOf] at h4
    | cons c r => exact ⟨c, r, rfl⟩
  obtain ⟨c, r, rfl⟩ := hpre
  have hc : asciiLower c = 't' := by
    simp [strOf] at h4
    exact h4.1
  have hfrom : aliasAt (strOf "from") ((c :: r) ++ ws ++ ':' :: post) = none := by
    unfold aliasAt
    have : ((c :: r) ++ ws ++ ':' :: post).take (strOf "from").length =
        c :: ((r ++ ws ++ ':' :: post).take 3) := by
      simp [strOf]
    rw [this]
    have hne : (c :: (r ++ ws ++ ':' :: post).take 3).map asciiLower ≠
        (strOf "from").map asciiLower := by
      intro hEq
      simp [strOf, hc] at hEq
      exact absurd hEq.1 (by decide)
    simp only [hne, if_false]
  show translateAliasesAux ((c :: r) ++ ws ++ ':' :: post).length false
      ((c :: r) ++ ws ++ ':' :: post) = _
  rw [show (c :: r) ++ ws ++ ':' :: post = c :: (r ++ ws ++ ':' :: post) by simp,
    show (c :: (r ++ ws ++ ':' :: post)).length = (r ++ ws ++ ':' :: post).length + 1 by simp]
  rw [translateAliasesAux]
  simp only [Bool.false_eq_true, if_false]
  rw [show c :: (r ++ ws ++ ':' :: post) = (c :: r) ++ ws ++ ':' :: post by simp, hfrom, haa]
  dsimp only
  congr 1
  rw [translateAliases]
  exact translateAliasesAux_fuel _ _ _ (by simp; omega)

/-! ## C6 — field alias translation -/

set_option maxRecDepth 4000 in
/-- C6 counterexample: the claim asserts that `rewrite("FROM : a@b.com")`
contains the substring `from_:"a@b.com"`.  The actual rewrite is
`from_: "a@b.com"` — the whitespace after the colon survives, the alias
token and the value become separate tokens, and the claimed contiguous
substring does not occur. -/
theorem field_alias_substring_counterexample :
    buildFtsMatch (some (strOf "FROM : a@b.com")) true synExpand =
      strOf "from_: \"a@b.com\"" ∧
    ¬ (strOf "from_:\"a@b.com\"" <:+:
        buildFtsMatch (some (strOf "FROM : a@b.com")) true synExpand) ∧
    containsSub (strOf "from_:\"a@b.com\"")
      (buildFtsMatch (some (strOf "FROM : a@b.com")) true synExpand) = false := by
  refine ⟨by decide, by decide, by decide⟩

set_option maxRecDepth 4000 in
/-- C6 (amended): the tokens `from:` and `to:` (word boundary,
case-insensitive, whitespace allowed before the colon) are rewritten to
`from_:` and `to_:`.  `rewrite("FROM : a@b.com")` equals
`from_: "a@b.com"` — it contains `from_:` but, because whitespace after
the colon separates the alias from the value, not the contiguous substring
`from_:"a@b.com"`; that substring appears when the value directly follows
the colon, e.g. in `rewrite("FROM :a@b.com")`. -/
theorem field_alias_translation_amended :
    (∀ pre ws post : Str, pre.map asciiLower = strOf "from" →
      (∀ c ∈ ws, isAsciiWs c = true) →
      translateAliases (pre ++ ws ++ ':' :: post) =
        strOf "from_:" ++ translateAliases post) ∧
    (∀ pre ws post : Str, pre.map asciiLower = strOf "to" →
      (∀ c ∈ ws, isAsciiWs c = true) →
      translateAliases (pre ++ ws ++ ':' :: post) =
        strOf "to_:" ++ translateAliases post) ∧
    buildFtsMatch (some (strOf "FROM : a@b.com")) true synExpand =
      strOf "from_: \"a@b.com\"" ∧
    (strOf "from_:" <:+:
      buildFtsMatch (some (strOf "FROM : a@b.com")) true synExpand) ∧
    buildFtsMatch (some (strOf "FROM :a@b.com")) true synExpand =
      strOf "from_:\"a@b.com\"" ∧
    (strOf "from_:\"a@b.com\"" <:+:
      buildFtsMatch (some (strOf "FROM :a@b.com")) true synExpand) := by
  refine ⟨translateAliases_from, translateAliases_to, by decide, by decide, by decide, by decide⟩

/-- Witness for `field_alias_translation_amended`: the general alias parts
applied at `"FROM : x"` and `"To:y"`. -/
theorem field_alias_translation_witness :
    translateAliases (strOf "FROM" ++ [' '] ++ ':' :: strOf " x") =
      strOf "from_:" ++ translateAliases (strOf " x") ∧
    translateAliases (strOf "To" ++ [] ++ ':' :: strOf "y") =
      strOf "to_:" ++ translateAliases (strOf "y") :=
  ⟨field_alias_translation_amended.1 (strOf "FROM") [' '] (strOf " x")
      (by decide) (by decide),
    field_alias_translation_amended.2.1 (strOf "To") [] (strOf "y")
      (by decide) (by decide)⟩

/-- `dropWhile` is the identity when no element satisfies the predicate. -/
theorem dropWhile_eq_self_of_all {p : Char → Bool} (l : Str)
    (h : ∀ c ∈ l, p c = false) : l.dropWhile p = l := by
  cases l with
  | nil => rfl
  | cons c rest => simp [List.dropWhile_cons, h c (by simp)]

/-- `rustTrim` is the identity on whitespace-free strings. -/
theorem rustTrim_eq_self (l : Str) (h : ∀ c ∈ l, rustIsWs c = false) :
    rustTrim l = l := by
  unfold rustTrim
  rw [dropWhile_eq_self_of_all l h,
    dropWhile_eq_self_of_all l.reverse (fun c hc => h c (List.mem_reverse.mp hc)),
    List.reverse_reverse]

/-- ASCII alphanumeric characters are not whitespace, not special characters
of the rewriter, and distinct from all of its marker characters. -/
theorem alnum_props (c : Char) (h : isAsciiAlnum c = true) :
    rustIsWs c = false ∧
    (c = '-' || c = '@' || c = ':' || c = '+' || c = '.') = false ∧
    c ≠ ':' ∧ c ≠ '"' ∧ c ≠ '_' ∧ c ≠ '*' ∧ c ≠ '/' ∧ c ≠ '?' ∧
    c ≠ Char.ofNat 39 ∧ c ≠ '(' := by
  simp only [isAsciiAlnum, isAsciiAlpha, isAsciiDigit, Bool.or_eq_true,
    Bool.and_eq_true, decide_eq_true_eq] at h
  have hb : 48 ≤ c.toNat ∧ c.toNat ≤ 122 ∧
      (c.toNat ≤ 57 ∨ 65 ≤ c.toNat) ∧ (c.toNat ≤ 90 ∨ 97 ≤ c.toNat) := by omega
  refine ⟨?_, ?_, ?_, ?_, ?_, ?_, ?_, ?_, ?_, ?_⟩
  · simp only [rustIsWs, Bool.or_eq_false_iff, Bool.and_eq_false_iff,
      decide_eq_false_iff_not]
    omega
  · simp only [Bool.or_eq_false_iff, decide_eq_false_iff_not]
    refine ⟨⟨⟨⟨?_, ?_⟩, ?_⟩, ?_⟩, ?_⟩ <;>
      · intro hEq
        subst hEq
        revert hb
        decide
  all_goals
    intro hEq
    subst hEq
    revert hb
    decide

/-- No lowercased member of the synonym table ends in `*`, so `expand`
leaves any string ending in `*` unchanged. -/
theorem synExpand_endsStar (s : Str) (h : endsWith '*' s = true) :
    synExpand s = s := by
  unfold synExpand
  cases hg : synGroupOf (rustToLower s) with
  | none => rfl
  | some g =>
    exfalso
    unfold synGroupOf at hg
    rw [Option.map_eq_some'] at hg
    obtain ⟨gr, hfind, _⟩ := hg
    have hpred := List.find?_some hfind
    have hmem := List.mem_of_find?_eq_some hfind
    rw [List.any_eq_true] at hpred
    obtain ⟨w, hw, hbeq⟩ := hpred
    have heqk : rustToLower (strOf w) = rustToLower s := by
      exact (beq_iff_eq).mp hbeq
    have hstar : endsWith '*' (rustToLower s) = true := by
      unfold rustToLower endsWith at *
      rw [List.getLast?_map]
      simp only [beq_iff_eq] at h ⊢
      rw [show s.getLast? = some '*' from h]
      rfl
    rw [← heqk] at hstar
    have htab : ∀ gr ∈ emailSynonyms, ∀ w ∈ gr.2,
        endsWith '*' (rustToLower (strOf w)) = false := by decide
    have := htab gr hmem w hw
    rw [hstar] at this
    exact absurd this (by simp)

/-- When `expand` changes a token, the result ends in `)` and in particular
not in `*`. -/
theorem synExpand_changed_shape (s : Str) (h : synExpand s ≠ s) :
    (synExpand s).getLast? = some ')' := by
  unfold synExpand at *
  cases hg : synGroupOf (rustToLower s) with
  | none =>
    rw [hg] at h
    dsimp only at h
    exact absurd rfl h
  | some g =>
    rw [hg] at h
    dsimp only at h
    by_cases hlen : 1 < g.length
    · simp only [if_pos hlen]
      rw [show strOf "(" ++ List.intercalate (strOf " OR ") g ++ strOf ")" =
        (strOf "(" ++ List.intercalate (strOf " OR ") g) ++ [')'] by simp [strOf]]
      exact List.getLast?_concat _
    · simp [hlen] at h

/-- A successful `aliasAt` implies the string contains a colon. -/
theorem aliasAt_some_colon {nd cs t : Str} (h : aliasAt nd cs = some t) :
    ':' ∈ cs := by
  unfold aliasAt at h
  split at h
  · split at h
    · rename_i heq
      have h1 : ':' ∈ (cs.drop nd.length).dropWhile isAsciiWs := by
        rw [heq]; simp
      exact (List.drop_sublist _ _).mem ((List.dropWhile_sublist _).mem h1)
    · exact absurd h (by simp)
  · exact absurd h (by simp)

/-- `translate_aliases` is the identity on colon-free strings. -/
theorem translateAliasesAux_no_colon :
    ∀ (f : ℕ) (b : Bool) (cs : Str), (∀ c ∈ cs, c ≠ ':') →
      translateAliasesAux f b cs = cs := by
  intro f
  induction f with
  | zero => intro b cs h; rfl
  | succ f ih =>
    intro b cs h
    cases cs with
    | nil => rfl
    | cons c rest =>
      have hfrom : aliasAt (strOf "from") (c :: rest) = none := by
        cases hx : aliasAt (strOf "from") (c :: rest) with
        | none => rfl
        | some t => exact absurd (h ':' (aliasAt_some_colon hx)) (by simp)
      have hto : aliasAt (strOf "to") (c :: rest) = none := by
        cases hx : aliasAt (strOf "to") (c :: rest) with
        | none => rfl
        | some t => exact absurd (h ':' (aliasAt_some_colon hx)) (by simp)
      have hrest : ∀ d ∈ rest, d ≠ ':' := fun d hd => h d (by simp [hd])
      rw [translateAliasesAux]
      cases b with
      | true => simp only [if_true]; rw [ih _ rest hrest]
      | false =>
        simp only [Bool.false_eq_true, if_false]
        rw [hfrom, hto]
        dsimp only
        rw [ih _ rest hrest]

/-- `extract_field_quoted` is the identity on colon-free strings. -/
theorem extractFQAux_no_colon :
    ∀ (f : ℕ) (cs : Str) (store : List (Str × Str)), (∀ c ∈ cs, c ≠ ':') →
      extractFQAux f cs store = (cs, store) := by
  intro f
  induction f with
  | zero => intro cs store h; rfl
  | succ f ih =>
    intro cs store h
    cases cs with
    | nil => rfl
    | cons c rest =>
      have hrest : ∀ d ∈ rest, d ≠ ':' := fun d hd => h d (by simp [hd])
      rw [extractFQAux]
      by_cases hc : isIdentStart c = true
      · simp only [hc, if_true]
        split
        · rename_i vrest heq
          exfalso
          have : ':' ∈ rest.dropWhile isIdentChar := by rw [heq]; simp
          exact absurd (hrest ':' ((List.dropWhile_sublist _).mem this)) (by simp)
        · rw [ih rest store hrest]
      · simp only [hc, if_false]
        rw [ih rest store hrest]
        simp

/-- `splitAtColon` finds nothing in a colon-free token. -/
theorem splitAtColon_none (cs : Str) (h : ∀ c ∈ cs, c ≠ ':') :
    splitAtColon cs = none := by
  induction cs with
  | nil => rfl
  | cons c rest ih =>
    rw [splitAtColon]
    simp only [h c (by simp), if_false]
    rw [ih (fun d hd => h d (by simp [hd]))]
    rfl

/-- `split_whitespace` of a nonempty whitespace-free string is the singleton
token. -/
theorem splitWsAux_no_ws (cs : Str) (h : ∀ c ∈ cs, rustIsWs c = false) :
    ∀ cur : Str, splitWsAux cs cur =
      if (cur.reverse ++ cs).isEmpty then [] else [cur.reverse ++ cs] := by
  induction cs with
  | nil =>
    intro cur
    rw [splitWsAux]
    cases cur with
    | nil => rfl
    | cons c r => simp
  | cons c rest ih =>
    intro cur
    rw [splitWsAux]
    simp only [h c (by simp), Bool.false_eq_true, if_false]
    rw [ih (fun d hd => h d (by simp [hd])) (c :: cur)]
    simp

/-- The wildcard policy of `processToken` for an unquoted, fieldless,
unquoted-value token whose escaped core needs no quoting: the output token
ends in `*` iff an explicit trailing `*` was present, or the core has
length at least 4 and no OR-group is coming in the segment, or the core
itself already ends in `*`. -/
theorem processToken_wildcard (useSyn whog : Bool) (store : List (Str × Str))
    (tok : Str)
    (hph : parsePlaceholder tok = none)
    (hpp : isPurePunctuation tok = false)
    (hsf : splitField tok = (none, tok))
    (hq : ((strOf "\"").isPrefixOf tok && (strOf "\"").isSuffixOf tok
      && decide (2 ≤ tok.length)) = false)
    (hnq : hasSpecialChars (tokenEscapedCore tok) = false) :
    ∃ out, processToken synExpand useSyn store whog tok = some out ∧
      (endsWith '*' out = true ↔
        (endsWith '*' tok = true ∨
         (4 ≤ (tokenEscapedCore tok).length ∧ whog = false) ∨
         endsWith '*' (tokenEscapedCore tok) = true)) := by
  have hpf : placeholderFieldQuoted tok store = none := by
    unfold placeholderFieldQuoted
    rw [hph]
    rfl
  have happ : ∀ l : Str, endsWith '*' (l ++ ['*']) = true := by
    intro l
    unfold endsWith
    rw [List.getLast?_concat]
    rfl
  unfold processToken
  rw [hpf]
  dsimp only
  rw [hpp]
  simp only [Bool.false_eq_true, if_false, hsf]
  rw [hq]
  simp only [Bool.false_eq_true, if_false]
  rw [show (if (removeApostrophes (trimTrailingSlashQuestion
      (if endsWith '*' tok then tok.dropLast else tok))).isEmpty && endsWith '*' tok
      then ['.']
      else removeApostrophes (trimTrailingSlashQuestion
        (if endsWith '*' tok then tok.dropLast else tok))) = tokenEscapedCore tok
    from rfl]
  rw [hnq]
  simp only [Bool.false_eq_true, if_false]
  cases hW : endsWith '*' tok with
  | true =>
    simp only [hW, Bool.not_true, Bool.and_false, Bool.false_and,
      Bool.false_eq_true, if_false, if_true]
    exact ⟨tokenEscapedCore tok ++ ['*'], rfl, by simp [happ, hW]⟩
  | false =>
    simp only [hW, Bool.not_false, Bool.true_and, Bool.false_eq_true, if_false]
    cases hcond : (decide (4 ≤ (tokenEscapedCore tok).length) && !whog) with
    | true =>
      simp only [if_true]
      have hcnd : 4 ≤ (tokenEscapedCore tok).length ∧ whog = false := by
        simp only [Bool.and_eq_true, decide_eq_true_eq, Bool.not_eq_true'] at hcond
        exact hcond
      have hne : (tokenEscapedCore tok ++ ['*']).isEmpty = false := by
        cases h : (tokenEscapedCore tok ++ ['*']) with
        | nil => simp at h
        | cons a l => rfl
      cases useSyn with
      | true =>
        simp only [Bool.true_and, hne, Bool.not_false, Bool.and_true, if_true]
        refine ⟨synExpand (tokenEscapedCore tok ++ ['*']), rfl, ?_⟩
        rw [synExpand_endsStar _ (happ _)]
        simp [happ, hcnd]
      | false =>
        simp only [Bool.false_and, Bool.false_eq_true, if_false]
        exact ⟨tokenEscapedCore tok ++ ['*'], rfl, by simp [happ, hcnd]⟩
    | false =>
      simp only [Bool.false_eq_true, if_false]
      have hncnd : ¬(4 ≤ (tokenEscapedCore tok).length ∧ whog = false) := by
        simp only [Bool.and_eq_false_iff, decide_eq_false_iff_not,
          Bool.not_eq_false'] at hcond
        rintro ⟨h4, hwg⟩
        rcases hcond with h | h
        · exact h h4
        · rw [hwg] at h; exact absurd h (by simp)
      cases hUS : (useSyn && !(tokenEscapedCore tok).isEmpty) with
      | false =>
        have hc2 : (useSyn && true && true && !(tokenEscapedCore tok).isEmpty) = false := by
          rcases Bool.and_eq_false_iff.mp hUS with h | h
          · simp [h]
          · simp [h]
        rw [hc2]
        simp only [Bool.false_eq_true, if_false]
        refine ⟨tokenEscapedCore tok, rfl, by simp [hW, hncnd]⟩
      | true =>
        have hUSy : useSyn = true ∧ (tokenEscapedCore tok).isEmpty = false := by
          simp only [Bool.and_eq_true, Bool.not_eq_true'] at hUS
          exact hUS
        have hc2 : (useSyn && true && true && !(tokenEscapedCore tok).isEmpty) = true := by
          simp [hUSy.1, hUSy.2]
        rw [hc2]
        simp only [if_true]
        by_cases hch : synExpand (tokenEscapedCore tok) = tokenEscapedCore tok
        · refine ⟨synExpand (tokenEscapedCore tok), rfl, ?_⟩
          rw [hch]
          simp [hW, hncnd]
        · refine ⟨synExpand (tokenEscapedCore tok), rfl, ?_⟩
          have hshape := synExpand_changed_shape _ hch
          have hlhs : endsWith '*' (synExpand (tokenEscapedCore tok)) = false := by
            unfold endsWith
            rw [hshape]
            rfl
          have hrhs : endsWith '*' (tokenEscapedCore tok) = false := by
            cases hx : endsWith '*' (tokenEscapedCore tok) with
            | false => rfl
            | true => exact absurd (synExpand_endsStar _ hx) hch
          rw [hlhs, hrhs]
          simp [hW, hncnd]

/-- A string none of whose characters is `ch` does not end with `ch`. -/
theorem endsWith_false_of_all (ch : Char) (l : Str) (h : ∀ c ∈ l, c ≠ ch) :
    endsWith ch l = false := by
  induction l with
  | nil => rfl
  | cons c rest ih =>
    cases rest with
    | nil =>
      unfold endsWith
      simp only [List.getLast?_singleton]
      simpa using h c (by simp)
    | cons d rest2 =>
      unfold endsWith at *
      rw [List.getLast?_cons_cons]
      exact ih (fun x hx => h x (by simp [hx]))

/-- On a plain alphanumeric word the synonym test reduces to whether
`expand` changes the word. -/
theorem willExpand_plain_word (w : Str) (hne : w ≠ [])
    (halnum : ∀ c ∈ w, isAsciiAlnum c = true) (hsyn : synExpand w = w) :
    willExpandToOrGroup synExpand w = false := by
  obtain ⟨c, rest, rfl⟩ : ∃ c rest, w = c :: rest := by
    cases w with
    | nil => exact absurd rfl hne
    | cons c rest => exact ⟨c, rest, rfl⟩
  have hprops := fun c hc => alnum_props c (halnum c hc)
  have hph : parsePlaceholder (c :: rest) = none := by
    unfold parsePlaceholder
    have : List.isPrefixOf (strOf "__FQ") (c :: rest) = false := by
      simp only [strOf]
      show (('_' == c) && List.isPrefixOf (strOf "_FQ") rest) = false
      have : ('_' == c) = false := by
        simp only [beq_eq_false_iff_ne, ne_eq]
        intro hEq
        exact absurd hEq.symm (hprops c (by simp)).2.2.2.2.1
      rw [this, Bool.false_and]
    rw [this, Bool.false_and, if_neg]
    simp
  have hpp : isPurePunctuation (c :: rest) = false := by
    unfold isPurePunctuation
    simp only [List.all_cons, rustIsAlnum, halnum c (by simp), Bool.not_true,
      Bool.false_and, Bool.false_and]
  have hsc : splitField (c :: rest) = (none, c :: rest) := by
    unfold splitField
    rw [splitAtColon_none _ (fun d hd => (hprops d hd).2.2.1)]
  have hqp : List.isPrefixOf (strOf "\"") (c :: rest) = false := by
    simp only [strOf]
    show (('"' == c) && List.isPrefixOf [] rest) = false
    have : ('"' == c) = false := by
      simp only [beq_eq_false_iff_ne, ne_eq]
      intro hEq
      exact absurd hEq.symm (hprops c (by simp)).2.2.2.1
    rw [this, Bool.false_and]
  have hW : endsWith '*' (c :: rest) = false :=
    endsWith_false_of_all _ _ (fun d hd => (hprops d hd).2.2.2.2.2.1)
  have hcore : trimTrailingSlashQuestion (c :: rest) = c :: rest := by
    unfold trimTrailingSlashQuestion
    rw [dropWhile_eq_self_of_all _ (fun d hd => ?_), List.reverse_reverse]
    have hd' := hprops d (List.mem_reverse.mp hd)
    simp only [Bool.or_eq_false_iff, decide_eq_false_iff_not]
    exact ⟨hd'.2.2.2.2.2.2.1, hd'.2.2.2.2.2.2.2.1⟩
  have hapos : removeApostrophes (c :: rest) = c :: rest := by
    unfold removeApostrophes
    rw [List.filter_eq_self.mpr]
    intro d hd
    simpa using (hprops d hd).2.2.2.2.2.2.2.2.1
  have hnq : hasSpecialChars (c :: rest) = false := by
    unfold hasSpecialChars
    rw [List.any_eq_false]
    intro d hd
    rw [(hprops d hd).2.1]
    simp
  unfold willExpandToOrGroup
  rw [hph, hpp]
  simp only [Option.isSome_none, Bool.false_or, Bool.false_eq_true, if_false]
  rw [hsc]
  dsimp only
  rw [hqp, Bool.false_and]
  simp only [Bool.false_eq_true, if_false]
  rw [hW]
  simp only [Bool.false_eq_true, if_false]
  rw [hcore, hapos]
  simp only [List.isEmpty_cons, Bool.false_eq_true, if_false, hnq, Bool.or_false,
    Bool.false_or]
  rw [hsyn]
  simp

/-- `processToken` auto-wildcards a plain alphanumeric word of length at
least 4 with no synonym group, in a segment without OR-groups. -/
theorem processToken_plain_word (w : Str) (hlen : 4 ≤ w.length)
    (halnum : ∀ c ∈ w, isAsciiAlnum c = true) (hsyn : synExpand w = w) :
    processToken synExpand true [] false w = some (w ++ ['*']) := by
  obtain ⟨c, rest, rfl⟩ : ∃ c rest, w = c :: rest := by
    cases w with
    | nil => simp at hlen
    | cons c rest => exact ⟨c, rest, rfl⟩
  have hprops := fun c hc => alnum_props c (halnum c hc)
  have hph : parsePlaceholder (c :: rest) = none := by
    unfold parsePlaceholder
    have : List.isPrefixOf (strOf "__FQ") (c :: rest) = false := by
      simp only [strOf]
      show (('_' == c) && List.isPrefixOf (strOf "_FQ") rest) = false
      have : ('_' == c) = false := by
        simp only [beq_eq_false_iff_ne, ne_eq]
        intro hEq
        exact absurd hEq.symm (hprops c (by simp)).2.2.2.2.1
      rw [this, Bool.false_and]
    rw [this, Bool.false_and, if_neg]
    simp
  have hpf : placeholderFieldQuoted (c :: rest) [] = none := by
    unfold placeholderFieldQuoted
    rw [hph]
    rfl
  have hpp : isPurePunctuation (c :: rest) = false := by
    unfold isPurePunctuation
    simp only [List.all_cons, rustIsAlnum, halnum c (by simp), Bool.not_true,
      Bool.false_and, Bool.false_and]
  have hsc : splitField (c :: rest) = (none, c :: rest) := by
    unfold splitField
    rw [splitAtColon_none _ (fun d hd => (hprops d hd).2.2.1)]
  have hqp : List.isPrefixOf (strOf "\"") (c :: rest) = false := by
    simp only [strOf]
    show (('"' == c) && List.isPrefixOf [] rest) = false
    have : ('"' == c) = false := by
      simp only [beq_eq_false_iff_ne, ne_eq]
      intro hEq
      exact absurd hEq.symm (hprops c (by simp)).2.2.2.1
    rw [this, Bool.false_and]
  have hW : endsWith '*' (c :: rest) = false :=
    endsWith_false_of_all _ _ (fun d hd => (hprops d hd).2.2.2.2.2.1)
  have hcore : trimTrailingSlashQuestion (c :: rest) = c :: rest := by
    unfold trimTrailingSlashQuestion
    rw [dropWhile_eq_self_of_all _ (fun d hd => ?_), List.reverse_reverse]
    have hd' := hprops d (List.mem_reverse.mp hd)
    simp only [Bool.or_eq_false_iff, decide_eq_false_iff_not]
    exact ⟨hd'.2.2.2.2.2.2.1, hd'.2.2.2.2.2.2.2.1⟩
  have hapos : removeApostrophes (c :: rest) = c :: rest := by
    unfold removeApostrophes
    rw [List.filter_eq_self.mpr]
    intro d hd
    simpa using (hprops d hd).2.2.2.2.2.2.2.2.1
  have hnq : hasSpecialChars (c :: rest) = false := by
    unfold hasSpecialChars
    rw [List.any_eq_false]
    intro d hd
    rw [(hprops d hd).2.1]
    simp
  have happ : endsWith '*' ((c :: rest) ++ ['*']) = true := by
    unfold endsWith
    rw [List.getLast?_concat]
    rfl
  unfold processToken
  rw [hpf]
  dsimp only
  rw [hpp]
  simp only [Bool.false_eq_true, if_false, hsc]
  rw [hqp]
  simp only [Bool.false_and, Bool.false_eq_true, if_false]
  rw [hW]
  simp only [Bool.false_eq_true, if_false, Bool.not_false, Bool.true_and]
  rw [hcore, hapos]
  simp only [List.isEmpty_cons, Bool.and_false, Bool.false_eq_true, if_false]
  rw [hnq]
  simp only [Bool.false_eq_true, if_false]
  have hlen' : 3 ≤ rest.length := by simpa using hlen
  simp [hlen']
  exact synExpand_endsStar _ (by simpa using happ)

/-- `build_fts_match` on a plain alphanumeric word of length ≥ 4 with no
synonym group appends `*`. -/
theorem buildFtsMatch_plain_word (w : Str) (hlen : 4 ≤ w.length)
    (halnum : ∀ c ∈ w, isAsciiAlnum c = true) (hsyn : synExpand w = w) :
    buildFtsMatch (some w) true synExpand = w ++ ['*'] := by
  have hne : w ≠ [] := by
    intro h
    rw [h] at hlen
    simp at hlen
  have hprops := fun c hc => alnum_props c (halnum c hc)
  have hws : ∀ c ∈ w, rustIsWs c = false := fun c hc => (hprops c hc).1
  have htrim : rustTrim w = w := rustTrim_eq_self w hws
  have hstar_nws : ∀ c ∈ w ++ ['*'], rustIsWs c = false := by
    intro c hc
    rcases List.mem_append.mp hc with h | h
    · exact hws c h
    · simp at h
      subst h
      rfl
  unfold buildFtsMatch
  dsimp only
  rw [htrim, if_neg (by simp [List.isEmpty_eq_false, hne])]
  rw [show translateAliases w = w from
    translateAliasesAux_no_colon _ _ _ (fun c hc => (hprops c hc).2.2.1)]
  rw [show extractFieldQuoted w = (w, []) from
    extractFQAux_no_colon _ _ _ (fun c hc => (hprops c hc).2.2.1)]
  dsimp only
  rw [show w.splitOn '"' = [w] from
    List.splitOnP_eq_single _ _ (fun x hx => by
      simpa using (hprops x hx).2.2.2.1)]
  rw [show ([w].enum) = [(0, w)] from rfl]
  rw [show List.filterMap (fun ip => if ip.1 % 2 == 1 then some ('"' :: ip.2 ++ ['"'])
      else processPart synExpand true [] ip.2) [(0, w)] =
      (processPart synExpand true [] w).toList from by
    cases h : processPart synExpand true [] w <;> simp [List.filterMap, h]]
  unfold processPart
  rw [show splitWs w = [w] from by
    unfold splitWs
    rw [splitWsAux_no_ws w hws []]
    simp [List.isEmpty_eq_false, hne]]
  simp only [List.any_cons, List.any_nil, Bool.or_false, Bool.true_and]
  rw [willExpand_plain_word w hne halnum hsyn]
  rw [show List.filterMap (processToken synExpand true [] false) [w] =
      [w ++ ['*']] from by
    rw [List.filterMap_cons, processToken_plain_word w hlen halnum hsyn]
    rfl]
  simp only [List.isEmpty_cons, Bool.false_eq_true, if_false]
  have hcontains : (w ++ ['*']).contains '(' = false := by
    rw [List.contains_eq_any_beq, List.any_eq_false]
    intro x hx
    rcases List.mem_append.mp hx with h | h
    · intro hbeq
      exact (hprops x h).2.2.2.2.2.2.2.2.2 ((beq_iff_eq.mp hbeq).symm)
    · simp at h
      subst h
      decide
  simp only [List.any_cons, List.any_nil, hcontains, Bool.false_and, Bool.or_false,
    Bool.false_eq_true, if_false]
  simp only [Option.toList]
  rw [show List.intercalate (strOf " ") [w ++ ['*']] = w ++ ['*'] from by
    simp [List.intercalate]]
  rw [show List.intercalate (strOf " ") [w ++ ['*']] = w ++ ['*'] from by
    simp [List.intercalate]]
  exact rustTrim_eq_self _ hstar_nws

/-! ## C5 — wildcard policy of the query rewriter -/

set_option maxRecDepth 4000 in
/-- C5 counterexample: for the query token `ab*?` the core (after stripping
trailing `*`, `/`, `?` and apostrophes) is `ab*`, which contains none of
`- @ : + .`; the token has no field prefix and no explicit trailing `*`
(the token ends in `?`), the core length is 3 < 4, and no synonym OR-group
arises — yet the rewritten token is `ab*`, which ends in `*`.  The claimed
iff is violated because stripping can expose an inner `*` at the end of
the core. -/
theorem wildcard_policy_counterexample :
    buildFtsMatch (some (strOf "ab*?")) true synExpand = strOf "ab*" ∧
    endsWith '*' (buildFtsMatch (some (strOf "ab*?")) true synExpand) = true ∧
    endsWith '*' (strOf "ab*?") = false ∧
    tokenEscapedCore (strOf "ab*?") = strOf "ab*" ∧
    (tokenEscapedCore (strOf "ab*?")).length < 4 ∧
    hasSpecialChars (tokenEscapedCore (strOf "ab*?")) = false ∧
    splitField (strOf "ab*?") = (none, strOf "ab*?") ∧
    willExpandToOrGroup synExpand (strOf "ab*?") = false := by
  refine ⟨by decide, by decide, by decide, by decide, by decide, by decide,
    by decide, by decide⟩

/-- C5 (amended): for an unquoted token with no field prefix whose escaped
core needs no quoting, the output token ends in `*` iff an explicit
trailing `*` was present, or the core length is at least 4 and no token in
the segment will expand to a synonym OR-group, **or the core itself ends in
`*`** (a trailing `*` uncovered by stripping `/`, `?` or apostrophes is
preserved).  In particular any plain alphanumeric word of length ≥ 4 with
no synonym group is auto-wildcarded. -/
theorem wildcard_policy_amended :
    (∀ (useSyn whog : Bool) (store : List (Str × Str)) (tok : Str),
      parsePlaceholder tok = none →
      isPurePunctuation tok = false →
      splitField tok = (none, tok) →
      ((strOf "\"").isPrefixOf tok && (strOf "\"").isSuffixOf tok
        && decide (2 ≤ tok.length)) = false →
      hasSpecialChars (tokenEscapedCore tok) = false →
      ∃ out, processToken synExpand useSyn store whog tok = some out ∧
        (endsWith '*' out = true ↔
          (endsWith '*' tok = true ∨
           (4 ≤ (tokenEscapedCore tok).length ∧ whog = false) ∨
           endsWith '*' (tokenEscapedCore tok) = true))) ∧
    (∀ w : Str, 4 ≤ w.length → (∀ c ∈ w, isAsciiAlnum c = true) →
      synExpand w = w →
      buildFtsMatch (some w) true synExpand = w ++ ['*'] ∧
      endsWith '*' (buildFtsMatch (some w) true synExpand) = true) := by
  refine ⟨processToken_wildcard, fun w hlen halnum hsyn => ?_⟩
  have h := buildFtsMatch_plain_word w hlen halnum hsyn
  refine ⟨h, ?_⟩
  rw [h]
  unfold endsWith
  rw [List.getLast?_concat]
  rfl

set_option maxRecDepth 4000 in
/-- Witness for `wildcard_policy_amended`: the token-level iff at the
token `hello` (auto-wildcarded) and the word-level instance at `hello`. -/
theorem wildcard_policy_witness :
    (∃ out, processToken synExpand true [] false (strOf "hello") = some out ∧
      (endsWith '*' out = true ↔
        (endsWith '*' (strOf "hello") = true ∨
         (4 ≤ (tokenEscapedCore (strOf "hello")).length ∧ false = false) ∨
         endsWith '*' (tokenEscapedCore (strOf "hello")) = true))) ∧
    buildFtsMatch (some (strOf "hello")) true synExpand = strOf "hello" ++ ['*'] := by
  refine ⟨?_, (wildcard_policy_amended.2 (strOf "hello") (by decide) (by decide)
    (by decide)).1⟩
  exact wildcard_policy_amended.1 true false [] (strOf "hello")
    (by decide) (by decide) (by decide) (by decide) (by decide)

/-! ## Faithfulness of `synGroupOf` to the map construction

`synGroupOf` (first-group search over `email_synonyms()`) is proved equal
to looking up the key in `synMap`, the model of the first-wins `HashMap`
built by `SynonymLookup::new`. -/

/-- `List.lookup` distributes over append. -/
theorem lookup_append {β : Type} (l₁ l₂ : List (Str × β)) (k : Str) :
    (l₁ ++ l₂).lookup k = (l₁.lookup k).or (l₂.lookup k) := by
  induction l₁ with
  | nil => simp [Option.none_or]
  | cons p l ih =>
    obtain ⟨k', v⟩ := p
    rw [List.cons_append, List.lookup_cons, List.lookup_cons]
    cases hb : k == k' with
    | true => simp
    | false => simpa using ih

/-- One member step of `SynonymLookup::new`: the lookup after inserting a
key (if absent) is the old lookup, falling back to the new binding. -/
theorem synInsertStep_lookup (m : List (Str × List Str)) (kw : Str)
    (ng : List Str) (key : Str) :
    ((if (m.lookup kw).isSome then m else m ++ [(kw, ng)]).lookup key) =
      (m.lookup key).or (if key == kw then some ng else none) := by
  cases hp : (m.lookup kw).isSome with
  | true =>
    simp only [hp, if_true]
    cases hk : key == kw with
    | true =>
      have : key = kw := beq_iff_eq.mp hk
      subst this
      obtain ⟨v, hv⟩ := Option.isSome_iff_exists.mp hp
      rw [hv]
      rfl
    | false => simp
  | false =>
    simp only [hp, Bool.false_eq_true, if_false]
    rw [lookup_append]
    congr 1
    rw [List.lookup_cons]
    cases hk : key == kw <;> simp

/-- The lookup after inserting one whole synonym group. -/
theorem synMapInsertGroup_lookup (g : List String) (ng : List Str)
    (m : List (Str × List Str)) (key : Str) :
    (g.foldl (fun m w =>
        let k := rustToLower (strOf w)
        if (m.lookup k).isSome then m else m ++ [(k, ng)]) m).lookup key =
      (m.lookup key).or
        (if g.any (fun w => rustToLower (strOf w) == key) then some ng else none) := by
  induction g generalizing m with
  | nil => simp
  | cons w ws ih =>
    rw [List.foldl_cons, ih, synInsertStep_lookup, Option.or_assoc]
    congr 1
    rw [List.any_cons]
    have hcomm : (rustToLower (strOf w) == key) = (key == rustToLower (strOf w)) := by
      cases hx : key == rustToLower (strOf w) with
      | true => rw [beq_iff_eq.mp hx]; simp
      | false =>
        cases hy : rustToLower (strOf w) == key with
        | true => rw [beq_iff_eq.mp hy] at hx; simp at hx
        | false => rfl
    rw [hcomm]
    cases hx : key == rustToLower (strOf w) with
    | true => simp
    | false =>
      simp only [Bool.false_or, Bool.false_eq_true, if_false, Option.none_or]

/-- `synGroupOf` agrees with the map lookup of the `SynonymLookup::new`
construction. -/
theorem synGroupOf_eq_synMap_lookup (key : Str) :
    synGroupOf key = synMap.lookup key := by
  suffices h : ∀ (gs : List (String × List String)) (m : List (Str × List Str)),
      (gs.foldl (fun m p => synMapInsertGroup m p.2) m).lookup key =
        (m.lookup key).or
          ((gs.find? (fun gr => gr.2.any (fun w => rustToLower (strOf w) == key))).map
            (fun gr => btreeOf gr.2)) by
    rw [synMap, h emailSynonyms []]
    simp [synGroupOf]
  intro gs
  induction gs with
  | nil => intro m; simp
  | cons gr grs ih =>
    intro m
    rw [List.foldl_cons, ih, List.find?_cons]
    rw [show synMapInsertGroup m gr.2 = gr.2.foldl (fun m w =>
        let k := rustToLower (strOf w)
        if (m.lookup k).isSome then m else m ++ [(k, btreeOf gr.2)]) m from rfl]
    rw [synMapInsertGroup_lookup gr.2 (btreeOf gr.2) m key]
    cases hp : gr.2.any (fun w => rustToLower (strOf w) == key) with
    | true => simp [Option.or_assoc]
    | false => simp

/-! ## C10 — the `memoryRead` handler -/

/-- Inserting into the date-sorted list is a permutation of consing. -/
theorem insertByDateAsc_perm (x : MemEntryOut) (l : List MemEntryOut) :
    (insertByDateAsc x l).Perm (x :: l) := by
  induction l with
  | nil => rfl
  | cons y ys ih =>
    rw [insertByDateAsc]
    split
    · rfl
    · exact ((ih.cons y).trans (List.Perm.swap x y ys))

/-- Inserting preserves sortedness by ascending `dateMs`. -/
theorem insertByDateAsc_sorted (x : MemEntryOut) (l : List MemEntryOut)
    (h : l.Pairwise (fun a b => a.dateMs ≤ b.dateMs)) :
    (insertByDateAsc x l).Pairwise (fun a b => a.dateMs ≤ b.dateMs) := by
  induction l with
  | nil => simp [insertByDateAsc]
  | cons y ys ih =>
    rw [insertByDateAsc]
    split
    · rename_i hle
      refine List.Pairwise.cons ?_ h
      intro b hb
      rcases List.mem_cons.mp hb with rfl | hb2
      · exact hle
      · exact le_trans hle (List.rel_of_pairwise_cons h hb2)
    · rename_i hgt
      refine List.Pairwise.cons ?_ (ih h.of_cons)
      intro b hb
      rcases List.mem_cons.mp ((insertByDateAsc_perm x ys).mem_iff.mp hb) with rfl | hb2
      · omega
      · exact List.rel_of_pairwise_cons h hb2

/-- The sort output is a permutation of the input. -/
theorem sortByDateAsc_perm (l : List MemEntryOut) : (sortByDateAsc l).Perm l := by
  induction l with
  | nil => rfl
  | cons x xs ih =>
    rw [sortByDateAsc, List.foldr_cons]
    exact (insertByDateAsc_perm x _).trans ((ih.cons x).trans (List.Perm.refl _))

/-- The sort output is sorted by ascending `dateMs`. -/
theorem sortByDateAsc_sorted (l : List MemEntryOut) :
    (sortByDateAsc l).Pairwise (fun a b => a.dateMs ≤ b.dateMs) := by
  induction l with
  | nil => exact List.Pairwise.nil
  | cons x xs ih =>
    rw [sortByDateAsc, List.foldr_cons]
    exact insertByDateAsc_sorted x _ ih

set_option maxRecDepth 2000 in
/-- C10: `memoryRead` returns the error response
`{id, error: "Missing or invalid timestampMs parameter"}` iff `timestampMs`
is missing, not an integer, or 0; otherwise `toleranceMs` defaults to
600 000 ms when absent and the result lists the entries with `dateMs` in
`[ts - tol, ts + tol]` in ascending `dateMs` order, capped at 50 (and
complete whenever at most 50 entries are in the window). -/
theorem memory_read_contract (rows : List MemEntryOut) (id : Str) (params : JVal) :
    (((params.get (strOf "timestampMs")).bind JVal.asI64 = none ∨
      (params.get (strOf "timestampMs")).bind JVal.asI64 = some 0) ↔
      handleMemoryRead rows id params =
        .err id (strOf "Missing or invalid timestampMs parameter")) ∧
    (∀ ts : Int, (params.get (strOf "timestampMs")).bind JVal.asI64 = some ts →
      ts ≠ 0 →
      DEFAULT_TOLERANCE_MS = 600000 ∧
      handleMemoryRead rows id params = .ok id (memoryReadByTimestamp rows ts
        (((params.get (strOf "toleranceMs")).bind JVal.asI64).getD DEFAULT_TOLERANCE_MS))) ∧
    (∀ ts tol : Int,
      (memoryReadByTimestamp rows ts tol).Pairwise (fun a b => a.dateMs ≤ b.dateMs) ∧
      (∀ e ∈ memoryReadByTimestamp rows ts tol,
        ts - tol ≤ e.dateMs ∧ e.dateMs ≤ ts + tol) ∧
      (memoryReadByTimestamp rows ts tol).length ≤ 50 ∧
      ((rows.filter (fun r =>
          ts - tol ≤ r.dateMs && r.dateMs ≤ ts + tol)).length ≤ 50 →
        (memoryReadByTimestamp rows ts tol).Perm
          (rows.filter (fun r => ts - tol ≤ r.dateMs && r.dateMs ≤ ts + tol)))) := by
  refine ⟨?_, ?_, ?_⟩
  · unfold handleMemoryRead
    constructor
    · intro h
      rcases h with h | h <;> rw [h] <;> simp
    · intro h
      by_cases hz : ((params.get (strOf "timestampMs")).bind JVal.asI64).getD 0 = 0
      · cases hx : (params.get (strOf "timestampMs")).bind JVal.asI64 with
        | none => exact Or.inl rfl
        | some v =>
          rw [hx] at hz
          simp at hz
          subst hz
          exact Or.inr rfl
      · rw [if_neg hz] at h
        exact absurd h (by simp)
  · intro ts hts hne
    refine ⟨rfl, ?_⟩
    unfold handleMemoryRead
    rw [hts]
    simp only [Option.getD_some]
    rw [if_neg hne]
  · intro ts tol
    refine ⟨?_, ?_, ?_, ?_⟩
    · exact (sortByDateAsc_sorted _).sublist (List.take_sublist _ _)
    · intro e he
      have h1 : e ∈ sortByDateAsc (rows.filter (fun r =>
          ts - tol ≤ r.dateMs && r.dateMs ≤ ts + tol)) :=
        (List.take_sublist _ _).mem he
      have h2 := (sortByDateAsc_perm _).mem_iff.mp h1
      have h3 := (List.mem_filter.mp h2).2
      simp only [Bool.and_eq_true, decide_eq_true_eq] at h3
      exact h3
    · rw [memoryReadByTimestamp]
      simp [List.length_take]
    · intro hlen
      rw [memoryReadByTimestamp]
      have hs := sortByDateAsc_perm (rows.filter (fun r =>
        ts - tol ≤ r.dateMs && r.dateMs ≤ ts + tol))
      rw [List.take_of_length_le (by rw [hs.length_eq]; exact hlen)]
      exact hs

/-- Witness for `memory_read_contract`: a two-row database with one entry in
the window; the handler returns it, and an absent `timestampMs` errors. -/
theorem memory_read_contract_witness :
    handleMemoryRead
      [⟨strOf "m1", strOf "user", strOf "hi", strOf "s", 1000⟩,
       ⟨strOf "m2", strOf "user", strOf "later", strOf "s", 999999999⟩]
      (strOf "42") (JVal.obj [(strOf "timestampMs", JVal.int 1500)]) =
      .ok (strOf "42") [⟨strOf "m1", strOf "user", strOf "hi", strOf "s", 1000⟩] ∧
    handleMemoryRead [] (strOf "7") (JVal.obj []) =
      .err (strOf "7") (strOf "Missing or invalid timestampMs parameter") := by
  constructor
  · have h := (memory_read_contract
      [⟨strOf "m1", strOf "user", strOf "hi", strOf "s", 1000⟩,
       ⟨strOf "m2", strOf "user", strOf "later", strOf "s", 999999999⟩]
      (strOf "42") (JVal.obj [(strOf "timestampMs", JVal.int 1500)])).2.1
      1500 (by decide) (by decide)
    rw [h.2]
    decide
  · exact (memory_read_contract [] (strOf "7") (JVal.obj [])).1.mp (Or.inl (by decide))

/-! ## C9 / C1 — `index_batch` counters and dedup -/

/-- Shifting the counter accumulator out of the `index_batch` fold. -/
theorem foldCounters_shift {σ : Type} (f : σ → JVal → σ × Int × Int) :
    ∀ (rows : List JVal) (st : σ) (a b : Int),
      rows.foldl (fun acc row =>
        let r := f acc.1 row
        (r.1, acc.2.1 + r.2.1, acc.2.2 + r.2.2)) (st, a, b) =
      ((rows.foldl (fun acc row =>
        let r := f acc.1 row
        (r.1, acc.2.1 + r.2.1, acc.2.2 + r.2.2)) (st, 0, 0)).1,
       a + (rows.foldl (fun acc row =>
        let r := f acc.1 row
        (r.1, acc.2.1 + r.2.1, acc.2.2 + r.2.2)) (st, 0, 0)).2.1,
       b + (rows.foldl (fun acc row =>
        let r := f acc.1 row
        (r.1, acc.2.1 + r.2.1, acc.2.2 + r.2.2)) (st, 0, 0)).2.2) := by
  intro rows
  induction rows with
  | nil => intro st a b; simp
  | cons row rows ih =>
    intro st a b
    rw [List.foldl_cons, List.foldl_cons]
    dsimp only
    rw [ih (f st row).1 (a + (f st row).2.1) (b + (f st row).2.2),
      ih (f st row).1 (0 + (f st row).2.1) (0 + (f st row).2.2)]
    dsimp only
    refine congrArg (fun z => (_, z)) ?_
    refine congrArg₂ (fun u v => (u, v)) (by omega) (by omega)

/-- Decomposition of `indexBatch` at a cons. -/
theorem indexBatch_cons {V : Type} (engine : Option (Str → Option V))
    (st : EmailState V) (row : JVal) (rows : List JVal) :
    indexBatch engine st (row :: rows) =
      ((indexBatch engine (indexRow engine st row).1 rows).1,
       (indexRow engine st row).2.1 +
         (indexBatch engine (indexRow engine st row).1 rows).2.1,
       (indexRow engine st row).2.2 +
         (indexBatch engine (indexRow engine st row).1 rows).2.2) := by
  unfold indexBatch
  rw [List.foldl_cons]
  dsimp only
  rw [foldCounters_shift (indexRow engine) rows (indexRow engine st row).1]
  simp

/-- Decomposition of `memoryIndexBatch` at a cons. -/
theorem memoryIndexBatch_cons {V : Type} (engine : Option (Str → Option V))
    (st : MemoryState V) (row : JVal) (rows : List JVal) :
    memoryIndexBatch engine st (row :: rows) =
      ((memoryIndexBatch engine (memoryIndexRow engine st row).1 rows).1,
       (memoryIndexRow engine st row).2.1 +
         (memoryIndexBatch engine (memoryIndexRow engine st row).1 rows).2.1,
       (memoryIndexRow engine st row).2.2 +
         (memoryIndexBatch engine (memoryIndexRow engine st row).1 rows).2.2) := by
  unfold memoryIndexBatch
  rw [List.foldl_cons]
  dsimp only
  rw [foldCounters_shift (memoryIndexRow engine) rows (memoryIndexRow engine st row).1]
  simp

/-- A row without a usable `msgId` is a no-op: no insert, no counter. -/
theorem indexRow_invalid {V : Type} (engine : Option (Str → Option V))
    (st : EmailState V) (row : JVal) (h : hasValidMsgId row = false) :
    indexRow engine st row = (st, 0, 0) := by
  unfold indexRow
  unfold hasValidMsgId at h
  cases hm : jgetStr row "msgId" with
  | none => rfl
  | some m =>
    rw [hm] at h
    simp only [Bool.not_eq_true'] at h
    dsimp only
    rw [if_pos (by simpa using h)]

/-- A valid row contributes exactly one to `inserted + skipped_duplicates`. -/
theorem indexRow_valid_one {V : Type} (engine : Option (Str → Option V))
    (st : EmailState V) (row : JVal) (h : hasValidMsgId row = true) :
    (indexRow engine st row).2.1 + (indexRow engine st row).2.2 = 1 := by
  unfold indexRow
  unfold hasValidMsgId at h
  cases hm : jgetStr row "msgId" with
  | none => rw [hm] at h; exact absurd h (by simp)
  | some m =>
    rw [hm] at h
    simp only [Bool.not_eq_true'] at h
    dsimp only
    rw [if_neg (by simp [h])]
    by_cases hl : (st.ids.lookup m).isSome = true
    · rw [if_pos hl]
      simp
    · rw [if_neg hl]
      simp

/-- The memory-side mirrors of the two row lemmas. -/
theorem memoryIndexRow_invalid {V : Type} (engine : Option (Str → Option V))
    (st : MemoryState V) (row : JVal) (h : hasValidMemId row = false) :
    memoryIndexRow engine st row = (st, 0, 0) := by
  unfold memoryIndexRow
  unfold hasValidMemId at h
  cases hm : jgetStr row "memId" with
  | none => rfl
  | some m =>
    rw [hm] at h
    simp only [Bool.not_eq_true'] at h
    dsimp only
    rw [if_pos (by simpa using h)]

/-- A valid memory row contributes exactly one to the counters. -/
theorem memoryIndexRow_valid_one {V : Type} (engine : Option (Str → Option V))
    (st : MemoryState V) (row : JVal) (h : hasValidMemId row = true) :
    (memoryIndexRow engine st row).2.1 + (memoryIndexRow engine st row).2.2 = 1 := by
  unfold memoryIndexRow
  unfold hasValidMemId at h
  cases hm : jgetStr row "memId" with
  | none => rw [hm] at h; exact absurd h (by simp)
  | some m =>
    rw [hm] at h
    simp only [Bool.not_eq_true'] at h
    dsimp only
    rw [if_neg (by simp [h])]
    by_cases hl : (st.ids.lookup m).isSome = true
    · rw [if_pos hl]
      simp
    · rw [if_neg hl]
      simp

/-- The counters of `index_batch` sum to the number of rows with a usable
`msgId`. -/
theorem indexBatch_counters {V : Type} (engine : Option (Str → Option V)) :
    ∀ (rows : List JVal) (st : EmailState V),
      (indexBatch engine st rows).2.1 + (indexBatch engine st rows).2.2 =
        (rows.countP hasValidMsgId : Int) := by
  intro rows
  induction rows with
  | nil => intro st; rfl
  | cons row rows ih =>
    intro st
    rw [indexBatch_cons]
    dsimp only
    rw [List.countP_cons]
    cases hv : hasValidMsgId row with
    | true =>
      have h1 := indexRow_valid_one engine st row hv
      have h2 := ih (indexRow engine st row).1
      simp only [hv, if_true]
      push_cast
      omega
    | false =>
      rw [indexRow_invalid engine st row hv]
      have h2 := ih st
      simp only [hv, Bool.false_eq_true, if_false]
      push_cast
      omega

/-- Memory-side counters. -/
theorem memoryIndexBatch_counters {V : Type} (engine : Option (Str → Option V)) :
    ∀ (rows : List JVal) (st : MemoryState V),
      (memoryIndexBatch engine st rows).2.1 + (memoryIndexBatch engine st rows).2.2 =
        (rows.countP hasValidMemId : Int) := by
  intro rows
  induction rows with
  | nil => intro st; rfl
  | cons row rows ih =>
    intro st
    rw [memoryIndexBatch_cons]
    dsimp only
    rw [List.countP_cons]
    cases hv : hasValidMemId row with
    | true =>
      have h1 := memoryIndexRow_valid_one engine st row hv
      have h2 := ih (memoryIndexRow engine st row).1
      simp only [hv, if_true]
      push_cast
      omega
    | false =>
      rw [memoryIndexRow_invalid engine st row hv]
      have h2 := ih st
      simp only [hv, Bool.false_eq_true, if_false]
      push_cast
      omega

/-- `indexRow` only ever appends to the id map. -/
theorem indexRow_ids_shape {V : Type} (engine : Option (Str → Option V))
    (st : EmailState V) (row : JVal) :
    ∃ tail, (indexRow engine st row).1.ids = st.ids ++ tail := by
  unfold indexRow
  cases hm : jgetStr row "msgId" with
  | none => exact ⟨[], by simp⟩
  | some m =>
    dsimp only
    by_cases he : m.isEmpty = true
    · rw [if_pos he]; exact ⟨[], by simp⟩
    · rw [if_neg he]
      by_cases hl : (st.ids.lookup m).isSome = true
      · rw [if_pos hl]; exact ⟨[], by simp⟩
      · rw [if_neg hl]; exact ⟨[(m, st.nextRowid)], rfl⟩

/-- Id-map lookups persist through `indexRow`. -/
theorem indexRow_ids_mono {V : Type} (engine : Option (Str → Option V))
    (st : EmailState V) (row : JVal) (k : Str)
    (h : (st.ids.lookup k).isSome = true) :
    ((indexRow engine st row).1.ids.lookup k).isSome = true := by
  obtain ⟨tail, ht⟩ := indexRow_ids_shape engine st row
  rw [ht, lookup_append]
  obtain ⟨v, hv⟩ := Option.isSome_iff_exists.mp h
  rw [hv]
  rfl

/-- After `indexRow` on a row with a usable `msgId`, that id is in the map. -/
theorem indexRow_registers {V : Type} (engine : Option (Str → Option V))
    (st : EmailState V) (row : JVal) (m : Str)
    (hm : jgetStr row "msgId" = some m) (hne : m.isEmpty = false) :
    ((indexRow engine st row).1.ids.lookup m).isSome = true := by
  unfold indexRow
  rw [hm]
  dsimp only
  rw [if_neg (by simp [hne])]
  by_cases hl : (st.ids.lookup m).isSome = true
  · rw [if_pos hl]; exact hl
  · rw [if_neg hl]
    show ((st.ids ++ [(m, st.nextRowid)]).lookup m).isSome = true
    rw [lookup_append]
    cases hx : st.ids.lookup m with
    | some v => simp
    | none => simp [List.lookup_cons]

/-- Id-map lookups persist through `indexBatch`. -/
theorem indexBatch_ids_mono {V : Type} (engine : Option (Str → Option V)) :
    ∀ (rows : List JVal) (st : EmailState V) (k : Str),
      (st.ids.lookup k).isSome = true →
      (((indexBatch engine st rows).1).ids.lookup k).isSome = true := by
  intro rows
  induction rows with
  | nil => intro st k h; exact h
  | cons row rows ih =>
    intro st k h
    rw [indexBatch_cons]
    exact ih _ k (indexRow_ids_mono engine st row k h)

/-- After `indexBatch`, every usable id of the batch is in the map. -/
theorem indexBatch_registers {V : Type} (engine : Option (Str → Option V)) :
    ∀ (rows : List JVal) (st : EmailState V) (row : JVal), row ∈ rows →
      ∀ m, jgetStr row "msgId" = some m → m.isEmpty = false →
      (((indexBatch engine st rows).1).ids.lookup m).isSome = true := by
  intro rows
  induction rows with
  | nil => intro st row h; simp at h
  | cons r0 rows ih =>
    intro st row hmem m hm hne
    rw [indexBatch_cons]
    rcases List.mem_cons.mp hmem with rfl | hmem2
    · exact indexBatch_ids_mono engine rows _ m (indexRow_registers engine st row m hm hne)
    · exact ih _ row hmem2 m hm hne

/-- `indexRow` on an already-present id skips and counts a duplicate. -/
theorem indexRow_skips {V : Type} (engine : Option (Str → Option V))
    (st : EmailState V) (row : JVal) (m : Str)
    (hm : jgetStr row "msgId" = some m) (hne : m.isEmpty = false)
    (hl : (st.ids.lookup m).isSome = true) :
    indexRow engine st row = (st, 0, 1) := by
  unfold indexRow
  rw [hm]
  dsimp only
  rw [if_neg (by simp [hne]), if_pos hl]

/-- `indexBatch` over rows whose ids are all already present: the state is
unchanged, nothing is inserted, and every row is counted as a duplicate. -/
theorem indexBatch_all_present {V : Type} (engine : Option (Str → Option V)) :
    ∀ (rows : List JVal) (st : EmailState V),
      (∀ row ∈ rows, ∃ m, jgetStr row "msgId" = some m ∧ m.isEmpty = false ∧
        (st.ids.lookup m).isSome = true) →
      indexBatch engine st rows = (st, 0, (rows.length : Int)) := by
  intro rows
  induction rows with
  | nil => intro st h; rfl
  | cons row rows ih =>
    intro st h
    obtain ⟨m, hm, hne, hl⟩ := h row (by simp)
    rw [indexBatch_cons, indexRow_skips engine st row m hm hne hl]
    dsimp only
    rw [ih st (fun r hr => h r (by simp [hr]))]
    dsimp only
    refine congrArg (fun z => (st, z)) ?_
    refine congrArg₂ (fun u v => (u, v)) (by omega) ?_
    simp only [List.length_cons]
    push_cast
    omega

/-- `memoryIndexRow` only ever appends to the id map. -/
theorem memoryIndexRow_ids_shape {V : Type} (engine : Option (Str → Option V))
    (st : MemoryState V) (row : JVal) :
    ∃ tail, (memoryIndexRow engine st row).1.ids = st.ids ++ tail := by
  unfold memoryIndexRow
  cases hm : jgetStr row "memId" with
  | none => exact ⟨[], by simp⟩
  | some m =>
    dsimp only
    by_cases he : m.isEmpty = true
    · rw [if_pos he]; exact ⟨[], by simp⟩
    · rw [if_neg he]
      by_cases hl : (st.ids.lookup m).isSome = true
      · rw [if_pos hl]; exact ⟨[], by simp⟩
      · rw [if_neg hl]; exact ⟨[(m, st.nextRowid)], rfl⟩

/-- Id-map lookups persist through `memoryIndexRow`. -/
theorem memoryIndexRow_ids_mono {V : Type} (engine : Option (Str → Option V))
    (st : MemoryState V) (row : JVal) (k : Str)
    (h : (st.ids.lookup k).isSome = true) :
    ((memoryIndexRow engine st row).1.ids.lookup k).isSome = true := by
  obtain ⟨tail, ht⟩ := memoryIndexRow_ids_shape engine st row
  rw [ht, lookup_append]
  obtain ⟨v, hv⟩ := Option.isSome_iff_exists.mp h
  rw [hv]
  rfl

/-- After `memoryIndexRow` on a row with a usable `memId`, that id is in
the map. -/
theorem memoryIndexRow_registers {V : Type} (engine : Option (Str → Option V))
    (st : MemoryState V) (row : JVal) (m : Str)
    (hm : jgetStr row "memId" = some m) (hne : m.isEmpty = false) :
    ((memoryIndexRow engine st row).1.ids.lookup m).isSome = true := by
  unfold memoryIndexRow
  rw [hm]
  dsimp only
  rw [if_neg (by simp [hne])]
  by_cases hl : (st.ids.lookup m).isSome = true
  · rw [if_pos hl]; exact hl
  · rw [if_neg hl]
    show ((st.ids ++ [(m, st.nextRowid)]).lookup m).isSome = true
    rw [lookup_append]
    cases hx : st.ids.lookup m with
    | some v => simp
    | none => simp [List.lookup_cons]

/-- Id-map lookups persist through `memoryIndexBatch`. -/
theorem memoryIndexBatch_ids_mono {V : Type} (engine : Option (Str → Option V)) :
    ∀ (rows : List JVal) (st : MemoryState V) (k : Str),
      (st.ids.lookup k).isSome = true →
      (((memoryIndexBatch engine st rows).1).ids.lookup k).isSome = true := by
  intro rows
  induction rows with
  | nil => intro st k h; exact h
  | cons row rows ih =>
    intro st k h
    rw [memoryIndexBatch_cons]
    exact ih _ k (memoryIndexRow_ids_mono engine st row k h)

/-- After `memoryIndexBatch`, every usable id of the batch is in the map. -/
theorem memoryIndexBatch_registers {V : Type} (engine : Option (Str → Option V)) :
    ∀ (rows : List JVal) (st : MemoryState V) (row : JVal), row ∈ rows →
      ∀ m, jgetStr row "memId" = some m → m.isEmpty = false →
      (((memoryIndexBatch engine st rows).1).ids.lookup m).isSome = true := by
  intro rows
  induction rows with
  | nil => intro st row h; simp at h
  | cons r0 rows ih =>
    intro st row hmem m hm hne
    rw [memoryIndexBatch_cons]
    rcases List.mem_cons.mp hmem with rfl | hmem2
    · exact memoryIndexBatch_ids_mono engine rows _ m
        (memoryIndexRow_registers engine st row m hm hne)
    · exact ih _ row hmem2 m hm hne

/-- `memoryIndexRow` on an already-present id skips and counts a duplicate. -/
theorem memoryIndexRow_skips {V : Type} (engine : Option (Str → Option V))
    (st : MemoryState V) (row : JVal) (m : Str)
    (hm : jgetStr row "memId" = some m) (hne : m.isEmpty = false)
    (hl : (st.ids.lookup m).isSome = true) :
    memoryIndexRow engine st row = (st, 0, 1) := by
  unfold memoryIndexRow
  rw [hm]
  dsimp only
  rw [if_neg (by simp [hne]), if_pos hl]

/-- `memoryIndexBatch` over rows whose ids are all already present: the
state is unchanged and every row is counted as a duplicate. -/
theorem memoryIndexBatch_all_present {V : Type} (engine : Option (Str → Option V)) :
    ∀ (rows : List JVal) (st : MemoryState V),
      (∀ row ∈ rows, ∃ m, jgetStr row "memId" = some m ∧ m.isEmpty = false ∧
        (st.ids.lookup m).isSome = true) →
      memoryIndexBatch engine st rows = (st, 0, (rows.length : Int)) := by
  intro rows
  induction rows with
  | nil => intro st h; rfl
  | cons row rows ih =>
    intro st h
    obtain ⟨m, hm, hne, hl⟩ := h row (by simp)
    rw [memoryIndexBatch_cons, memoryIndexRow_skips engine st row m hm hne hl]
    dsimp only
    rw [ih st (fun r hr => h r (by simp [hr]))]
    dsimp only
    refine congrArg (fun z => (st, z)) ?_
    refine congrArg₂ (fun u v => (u, v)) (by omega) ?_
    simp only [List.length_cons]
    push_cast
    omega

/-- Unfolding of the validity check for `msgId`. -/
theorem hasValidMsgId_iff (row : JVal) :
    hasValidMsgId row = true ↔
      ∃ m, jgetStr row "msgId" = some m ∧ m.isEmpty = false := by
  unfold hasValidMsgId
  cases hm : jgetStr row "msgId" with
  | none => simp
  | some m => simp

/-- Unfolding of the validity check for `memId`. -/
theorem hasValidMemId_iff (row : JVal) :
    hasValidMemId row = true ↔
      ∃ m, jgetStr row "memId" = some m ∧ m.isEmpty = false := by
  unfold hasValidMemId
  cases hm : jgetStr row "memId" with
  | none => simp
  | some m => simp

/-- C9: a batch row whose `msgId` (resp. `memId`) is missing, not a string,
or empty is skipped by `indexBatch` / `memoryIndexBatch` without touching
the state and without incrementing either the `inserted` or the
`skipped_duplicates` counter; the two counters always sum to the number of
rows with a usable id, so on the concrete batch `[{}]` their sum is
strictly below the batch length. -/
theorem index_batch_skips_invalid_rows :
    (∀ (V : Type) (engine : Option (Str → Option V)) (st : EmailState V) (row : JVal),
        hasValidMsgId row = false → indexRow engine st row = (st, 0, 0)) ∧
    (∀ (V : Type) (engine : Option (Str → Option V)) (st : MemoryState V) (row : JVal),
        hasValidMemId row = false → memoryIndexRow engine st row = (st, 0, 0)) ∧
    (∀ (V : Type) (engine : Option (Str → Option V)) (st : EmailState V) (rows : List JVal),
        (indexBatch engine st rows).2.1 + (indexBatch engine st rows).2.2 =
          (rows.countP hasValidMsgId : Int)) ∧
    (∀ (V : Type) (engine : Option (Str → Option V)) (st : MemoryState V) (rows : List JVal),
        (memoryIndexBatch engine st rows).2.1 + (memoryIndexBatch engine st rows).2.2 =
          (rows.countP hasValidMemId : Int)) ∧
    ((indexBatch (V := Unit) none (emptyEmailState Unit) [JVal.obj []]).2.1 +
        (indexBatch (V := Unit) none (emptyEmailState Unit) [JVal.obj []]).2.2 <
      (([JVal.obj []] : List JVal).length : Int)) ∧
    ((memoryIndexBatch (V := Unit) none (emptyMemoryState Unit) [JVal.obj []]).2.1 +
        (memoryIndexBatch (V := Unit) none (emptyMemoryState Unit) [JVal.obj []]).2.2 <
      (([JVal.obj []] : List JVal).length : Int)) :=
  ⟨fun V engine st row h => indexRow_invalid engine st row h,
   fun V engine st row h => memoryIndexRow_invalid engine st row h,
   fun V engine st rows => indexBatch_counters engine rows st,
   fun V engine st rows => memoryIndexBatch_counters engine rows st,
   by decide, by decide⟩

/-- Witness for C9: the invalid-row no-op instantiated on the empty JSON
object over a fresh database. -/
theorem index_batch_skips_invalid_rows_witness :
    indexRow (V := Unit) none (emptyEmailState Unit) (JVal.obj []) =
        (emptyEmailState Unit, 0, 0) ∧
    memoryIndexRow (V := Unit) none (emptyMemoryState Unit) (JVal.obj []) =
        (emptyMemoryState Unit, 0, 0) :=
  ⟨index_batch_skips_invalid_rows.1 Unit none (emptyEmailState Unit) (JVal.obj []) (by decide),
   index_batch_skips_invalid_rows.2.1 Unit none (emptyMemoryState Unit) (JVal.obj []) (by decide)⟩

/-- C1 counterexample: on the batch `[{}]` (one row with no `msgId`), the
second `indexBatch` run reports `skipped_duplicates = 0`, not the batch
length `1`: rows without a usable id are never entered into the id map, so
re-running the batch does not count them as duplicates. -/
theorem index_batch_dedup_counterexample :
    (indexBatch (V := Unit) none
        (indexBatch (V := Unit) none (emptyEmailState Unit) [JVal.obj []]).1
        [JVal.obj []]).2.2 ≠ (([JVal.obj []] : List JVal).length : Int) := by
  decide

/-- C1 (amended): for every batch `B` all of whose rows carry a usable
(nonempty string) `msgId` — resp. `memId` — running `indexBatch(B)` and
then `indexBatch(B)` again yields, on the second call, `inserted = 0` and
`skipped_duplicates = |B|`, and leaves the whole database state (hence the
document count) unchanged; likewise for `memoryIndexBatch`. -/
theorem index_batch_dedup_amended :
    (∀ (V : Type) (engine : Option (Str → Option V)) (st : EmailState V) (B : List JVal),
        (∀ row ∈ B, hasValidMsgId row = true) →
        indexBatch engine (indexBatch engine st B).1 B =
          ((indexBatch engine st B).1, 0, (B.length : Int))) ∧
    (∀ (V : Type) (engine : Option (Str → Option V)) (st : MemoryState V) (B : List JVal),
        (∀ row ∈ B, hasValidMemId row = true) →
        memoryIndexBatch engine (memoryIndexBatch engine st B).1 B =
          ((memoryIndexBatch engine st B).1, 0, (B.length : Int))) := by
  constructor
  · intro V engine st B h
    apply indexBatch_all_present
    intro row hr
    obtain ⟨m, hm, hne⟩ := (hasValidMsgId_iff row).mp (h row hr)
    exact ⟨m, hm, hne, indexBatch_registers engine B st row hr m hm hne⟩
  · intro V engine st B h
    apply memoryIndexBatch_all_present
    intro row hr
    obtain ⟨m, hm, hne⟩ := (hasValidMemId_iff row).mp (h row hr)
    exact ⟨m, hm, hne, memoryIndexBatch_registers engine B st row hr m hm hne⟩

/-- Witness for the amended C1: the idempotence equations instantiated on
the one-row batches `[{"msgId": "a"}]` and `[{"memId": "a"}]` over fresh
databases. -/
theorem index_batch_dedup_witness :
    (∀ row ∈ [JVal.obj [(strOf "msgId", JVal.str (strOf "a"))]], hasValidMsgId row = true) ∧
    indexBatch (V := Unit) none
        (indexBatch (V := Unit) none (emptyEmailState Unit)
          [JVal.obj [(strOf "msgId", JVal.str (strOf "a"))]]).1
        [JVal.obj [(strOf "msgId", JVal.str (strOf "a"))]] =
      ((indexBatch (V := Unit) none (emptyEmailState Unit)
          [JVal.obj [(strOf "msgId", JVal.str (strOf "a"))]]).1, 0,
        (([JVal.obj [(strOf "msgId", JVal.str (strOf "a"))]] : List JVal).length : Int)) ∧
    memoryIndexBatch (V := Unit) none
        (memoryIndexBatch (V := Unit) none (emptyMemoryState Unit)
          [JVal.obj [(strOf "memId", JVal.str (strOf "a"))]]).1
        [JVal.obj [(strOf "memId", JVal.str (strOf "a"))]] =
      ((memoryIndexBatch (V := Unit) none (emptyMemoryState Unit)
          [JVal.obj [(strOf "memId", JVal.str (strOf "a"))]]).1, 0,
        (([JVal.obj [(strOf "memId", JVal.str (strOf "a"))]] : List JVal).length : Int)) :=
  ⟨by decide,
   index_batch_dedup_amended.1 Unit none (emptyEmailState Unit)
     [JVal.obj [(strOf "msgId", JVal.str (strOf "a"))]] (by decide),
   index_batch_dedup_amended.2 Unit none (emptyMemoryState Unit)
     [JVal.obj [(strOf "memId", JVal.str (strOf "a"))]] (by decide)⟩

/-- Inserting by ascending rowid permutes a cons. -/
theorem insertRowAsc_perm {R : Type} (x : Int × R) (l : List (Int × R)) :
    (insertRowAsc x l).Perm (x :: l) := by
  induction l with
  | nil => rfl
  | cons y ys ih =>
    rw [insertRowAsc]
    split
    · rfl
    · exact ((ih.cons y).trans (List.Perm.swap x y ys))

/-- Inserting by ascending rowid preserves sortedness. -/
theorem insertRowAsc_sorted {R : Type} (x : Int × R) (l : List (Int × R))
    (h : l.Pairwise (fun a b => a.1 ≤ b.1)) :
    (insertRowAsc x l).Pairwise (fun a b => a.1 ≤ b.1) := by
  induction l with
  | nil => simp [insertRowAsc]
  | cons y ys ih =>
    rw [insertRowAsc]
    split
    · rename_i hle
      refine List.Pairwise.cons ?_ h
      intro b hb
      rcases List.mem_cons.mp hb with rfl | hb2
      · exact hle
      · exact le_trans hle (List.rel_of_pairwise_cons h hb2)
    · rename_i hgt
      refine List.Pairwise.cons ?_ (ih h.of_cons)
      intro b hb
      rcases List.mem_cons.mp ((insertRowAsc_perm x ys).mem_iff.mp hb) with rfl | hb2
      · omega
      · exact List.rel_of_pairwise_cons h hb2

/-- `sortRowsAsc` permutes its input. -/
theorem sortRowsAsc_perm {R : Type} (l : List (Int × R)) : (sortRowsAsc l).Perm l := by
  induction l with
  | nil => rfl
  | cons x xs ih =>
    rw [sortRowsAsc, List.foldr_cons]
    exact (insertRowAsc_perm x _).trans (ih.cons x)

/-- `sortRowsAsc` sorts by ascending rowid. -/
theorem sortRowsAsc_sorted {R : Type} (l : List (Int × R)) :
    (sortRowsAsc l).Pairwise (fun a b => a.1 ≤ b.1) := by
  induction l with
  | nil => exact List.Pairwise.nil
  | cons x xs ih =>
    rw [sortRowsAsc, List.foldr_cons]
    exact insertRowAsc_sorted x _ ih

/-- `sqlLimit` yields a sublist. -/
theorem sqlLimit_sublist {α : Type} (k : Int) (l : List α) :
    (sqlLimit k l).Sublist l := by
  unfold sqlLimit
  split
  · exact List.Sublist.refl l
  · exact List.take_sublist _ l

/-- The fetched batch is sorted by ascending rowid. -/
theorem selectBatch_sorted {R : Type} (fts : List (Int × R)) (lastRowid batchSize : Int) :
    (selectBatch fts lastRowid batchSize).Pairwise (fun a b => a.1 ≤ b.1) := by
  unfold selectBatch
  exact (sortRowsAsc_sorted _).sublist (sqlLimit_sublist _ _)

/-- Every fetched row comes from the table and has rowid above the cursor. -/
theorem selectBatch_mem {R : Type} (fts : List (Int × R)) (lastRowid batchSize : Int)
    (q : Int × R) (hq : q ∈ selectBatch fts lastRowid batchSize) :
    q ∈ fts ∧ lastRowid < q.1 := by
  unfold selectBatch at hq
  have h1 : q ∈ sortRowsAsc (fts.filter (fun p => lastRowid < p.1)) :=
    (sqlLimit_sublist _ _).subset hq
  have h2 : q ∈ fts.filter (fun p => lastRowid < p.1) := (sortRowsAsc_perm _).mem_iff.mp h1
  obtain ⟨hm, hd⟩ := List.mem_filter.mp h2
  exact ⟨hm, by exact_mod_cast of_decide_eq_true hd⟩

/-- `getLastD` is the default or a member. -/
theorem getLastD_mem_cons : ∀ (xs : List Int) (d : Int), xs.getLastD d ∈ d :: xs := by
  intro xs
  induction xs with
  | nil => intro d; simp [List.getLastD]
  | cons y ys ih =>
    intro d
    rw [List.getLastD_cons]
    rcases List.mem_cons.mp (ih y) with h | h
    · rw [h]; simp
    · exact List.mem_cons.mpr (Or.inr (List.mem_cons.mpr (Or.inr h)))

/-- In a sorted list, `getLastD` dominates every member. -/
theorem sorted_le_getLastD : ∀ (xs : List Int), xs.Pairwise (· ≤ ·) →
    ∀ (d x : Int), x ∈ xs → x ≤ xs.getLastD d := by
  intro xs
  induction xs with
  | nil => intro h d x hx; simp at hx
  | cons y ys ih =>
    intro h d x hx
    rw [List.getLastD_cons]
    rcases List.mem_cons.mp hx with rfl | hx2
    · rcases List.mem_cons.mp (getLastD_mem_cons ys x) with he | hm
      · rw [he]
      · exact List.rel_of_pairwise_cons h hm
    · exact ih h.of_cons y x hx2

/-- The rebuild loop's running `new_last_rowid` is the last fetched rowid,
or the initial cursor when the batch is empty. -/
theorem rebuildFold_last {V R : Type} (textOf : R → Str) (engine : Str → Option V) :
    ∀ (batch : List (Int × R)) (v : List (Int × V)) (l c : Int),
      (batch.foldl (fun (acc : List (Int × V) × Int × Int) p =>
        match engine (textOf p.2) with
        | some emb => (vecDeleteInsert acc.1 p.1 emb, p.1, acc.2.2 + 1)
        | none => (acc.1, p.1, acc.2.2)) (v, l, c)).2.1
      = (batch.map Prod.fst).getLastD l := by
  intro batch
  induction batch with
  | nil => intro v l c; rfl
  | cons p ps ih =>
    intro v l c
    rw [List.foldl_cons, List.map_cons, List.getLastD_cons]
    cases he : engine (textOf p.2) with
    | some emb =>
      dsimp only
      exact ih _ _ _
    | none =>
      dsimp only
      exact ih _ _ _

/-- The rebuild loop's `embedded` counter counts the rows on which the
engine succeeds. -/
theorem rebuildFold_cnt {V R : Type} (textOf : R → Str) (engine : Str → Option V) :
    ∀ (batch : List (Int × R)) (v : List (Int × V)) (l c : Int),
      (batch.foldl (fun (acc : List (Int × V) × Int × Int) p =>
        match engine (textOf p.2) with
        | some emb => (vecDeleteInsert acc.1 p.1 emb, p.1, acc.2.2 + 1)
        | none => (acc.1, p.1, acc.2.2)) (v, l, c)).2.2
      = c + (batch.countP (fun p => (engine (textOf p.2)).isSome) : Int) := by
  intro batch
  induction batch with
  | nil => intro v l c; simp
  | cons p ps ih =>
    intro v l c
    rw [List.foldl_cons]
    cases he : engine (textOf p.2) with
    | some emb =>
      dsimp only
      rw [ih _ _ _, List.countP_cons, he]
      simp only [Option.isSome_some, eq_self_iff_true, if_true]
      push_cast
      omega
    | none =>
      dsimp only
      rw [ih _ _ _, List.countP_cons, he]
      simp only [Option.isSome_none, Bool.false_eq_true, if_false, Nat.add_zero]

/-- When the engine fails on every fetched row, the rebuild loop leaves the
vec table untouched. -/
theorem rebuildFold_fst_none {V R : Type} (textOf : R → Str) (engine : Str → Option V) :
    ∀ (batch : List (Int × R)) (v : List (Int × V)) (l c : Int),
      (∀ p ∈ batch, engine (textOf p.2) = none) →
      (batch.foldl (fun (acc : List (Int × V) × Int × Int) p =>
        match engine (textOf p.2) with
        | some emb => (vecDeleteInsert acc.1 p.1 emb, p.1, acc.2.2 + 1)
        | none => (acc.1, p.1, acc.2.2)) (v, l, c)).1 = v := by
  intro batch
  induction batch with
  | nil => intro v l c h; rfl
  | cons p ps ih =>
    intro v l c h
    rw [List.foldl_cons]
    have he := h p (by simp)
    dsimp only
    rw [he]
    dsimp only
    exact ih _ _ _ (fun q hq => h q (by simp [hq]))

/-- On an empty fetch, a rebuild batch is `(vec, last_rowid, 0, 0, true)`. -/
theorem rebuildBatchCore_empty {V R : Type} (textOf : R → Str) (engine : Str → Option V)
    (fts : List (Int × R)) (vec : List (Int × V)) (lastRowid batchSize : Int)
    (h : selectBatch fts lastRowid batchSize = []) :
    rebuildBatchCore textOf engine fts vec lastRowid batchSize =
      (vec, lastRowid, 0, 0, true) := by
  unfold rebuildBatchCore
  dsimp only
  rw [h]
  rfl

/-- `processed` is the number of fetched rows. -/
theorem rebuildBatchCore_processed {V R : Type} (textOf : R → Str) (engine : Str → Option V)
    (fts : List (Int × R)) (vec : List (Int × V)) (lastRowid batchSize : Int) :
    (rebuildBatchCore textOf engine fts vec lastRowid batchSize).2.2.1 =
      ((selectBatch fts lastRowid batchSize).length : Int) := by
  by_cases h : selectBatch fts lastRowid batchSize = []
  · rw [rebuildBatchCore_empty textOf engine fts vec lastRowid batchSize h, h]
    rfl
  · unfold rebuildBatchCore
    dsimp only
    rw [if_neg (fun hc => h (List.isEmpty_iff.mp hc))]

/-- `done` holds iff the fetch was empty or strictly smaller than
`batch_size`. -/
theorem rebuildBatchCore_done {V R : Type} (textOf : R → Str) (engine : Str → Option V)
    (fts : List (Int × R)) (vec : List (Int × V)) (lastRowid batchSize : Int) :
    ((rebuildBatchCore textOf engine fts vec lastRowid batchSize).2.2.2.2 = true ↔
      (selectBatch fts lastRowid batchSize = [] ∨
        ((selectBatch fts lastRowid batchSize).length : Int) < batchSize)) := by
  by_cases h : selectBatch fts lastRowid batchSize = []
  · rw [rebuildBatchCore_empty textOf engine fts vec lastRowid batchSize h]
    simp [h]
  · unfold rebuildBatchCore
    dsimp only
    rw [if_neg (fun hc => h (List.isEmpty_iff.mp hc))]
    dsimp only
    rw [decide_eq_true_iff]
    constructor
    · exact Or.inr
    · intro hc
      rcases hc with hc | hc
      · exact absurd hc h
      · exact hc

/-- `embedded` counts the fetched rows on which the engine succeeds. -/
theorem rebuildBatchCore_embedded {V R : Type} (textOf : R → Str) (engine : Str → Option V)
    (fts : List (Int × R)) (vec : List (Int × V)) (lastRowid batchSize : Int) :
    (rebuildBatchCore textOf engine fts vec lastRowid batchSize).2.2.2.1 =
      ((selectBatch fts lastRowid batchSize).countP
        (fun p => (engine (textOf p.2)).isSome) : Int) := by
  by_cases h : selectBatch fts lastRowid batchSize = []
  · rw [rebuildBatchCore_empty textOf engine fts vec lastRowid batchSize h, h]
    rfl
  · unfold rebuildBatchCore
    dsimp only
    rw [if_neg (fun hc => h (List.isEmpty_iff.mp hc))]
    dsimp only
    exact (rebuildFold_cnt textOf engine _ vec lastRowid 0).trans (zero_add _)

/-- On an empty fetch, `new_last_rowid` is the incoming cursor. -/
theorem rebuildBatchCore_last_empty {V R : Type} (textOf : R → Str) (engine : Str → Option V)
    (fts : List (Int × R)) (vec : List (Int × V)) (lastRowid batchSize : Int)
    (h : selectBatch fts lastRowid batchSize = []) :
    (rebuildBatchCore textOf engine fts vec lastRowid batchSize).2.1 = lastRowid := by
  rw [rebuildBatchCore_empty textOf engine fts vec lastRowid batchSize h]

/-- On a nonempty fetch, `new_last_rowid` is a fetched rowid dominating all
fetched rowids (the largest, since the fetch is sorted ascending). -/
theorem rebuildBatchCore_last_max {V R : Type} (textOf : R → Str) (engine : Str → Option V)
    (fts : List (Int × R)) (vec : List (Int × V)) (lastRowid batchSize : Int)
    (h : selectBatch fts lastRowid batchSize ≠ []) :
    (rebuildBatchCore textOf engine fts vec lastRowid batchSize).2.1 ∈
        (selectBatch fts lastRowid batchSize).map Prod.fst ∧
      ∀ q ∈ selectBatch fts lastRowid batchSize,
        q.1 ≤ (rebuildBatchCore textOf engine fts vec lastRowid batchSize).2.1 := by
  have hlast : (rebuildBatchCore textOf engine fts vec lastRowid batchSize).2.1 =
      ((selectBatch fts lastRowid batchSize).map Prod.fst).getLastD lastRowid := by
    unfold rebuildBatchCore
    dsimp only
    rw [if_neg (fun hc => h (List.isEmpty_iff.mp hc))]
    dsimp only
    exact rebuildFold_last textOf engine _ vec lastRowid 0
  rw [hlast]
  have hsorted : ((selectBatch fts lastRowid batchSize).map Prod.fst).Pairwise (· ≤ ·) :=
    List.pairwise_map.mpr (selectBatch_sorted fts lastRowid batchSize)
  constructor
  · cases hb : selectBatch fts lastRowid batchSize with
    | nil => exact absurd hb h
    | cons p ps =>
      rw [List.map_cons, List.getLastD_cons]
      exact getLastD_mem_cons (ps.map Prod.fst) p.1
  · intro q hq
    exact sorted_le_getLastD _ hsorted lastRowid q.1 (List.mem_map_of_mem Prod.fst hq)

/-- When the engine fails on every fetched row, the vec table is unchanged. -/
theorem rebuildBatchCore_vec_none {V R : Type} (textOf : R → Str) (engine : Str → Option V)
    (fts : List (Int × R)) (vec : List (Int × V)) (lastRowid batchSize : Int)
    (h : ∀ p ∈ selectBatch fts lastRowid batchSize, engine (textOf p.2) = none) :
    (rebuildBatchCore textOf engine fts vec lastRowid batchSize).1 = vec := by
  by_cases hb : selectBatch fts lastRowid batchSize = []
  · rw [rebuildBatchCore_empty textOf engine fts vec lastRowid batchSize hb]
  · unfold rebuildBatchCore
    dsimp only
    rw [if_neg (fun hc => hb (List.isEmpty_iff.mp hc))]
    dsimp only
    exact rebuildFold_fst_none textOf engine _ vec lastRowid 0 h

/-- C8 counterexample: two concrete failures of the claimed contract.
With `batch_size = 0` on an empty table, the fetch is empty and the code
returns `done = true`, although zero rows fetched is not fewer than
`batch_size = 0` — so `done` is not equivalent to `fetched < batch_size`.
And on a one-row table whose embedding fails, the row is fetched
(`processed = 1`) but no DELETE/INSERT happens (`embedded = 0` and the
stale vec row survives), refuting "for each computes the embedding and
performs DELETE ... followed by INSERT". -/
theorem rebuild_batch_counterexample :
    ((rebuildEmbeddingsBatch (V := Unit) (fun _ => some ())
        (emptyEmailState Unit) 0 0).2.2.2.2 = true ∧
      ¬ ((rebuildEmbeddingsBatch (V := Unit) (fun _ => some ())
        (emptyEmailState Unit) 0 0).2.2.1 < (0 : Int))) ∧
    ((rebuildEmbeddingsBatch (V := Unit) (fun _ => none)
        (⟨[(strOf "a", 1)], 2, [(1, ⟨strOf "a", [], [], [], [], [], []⟩)], [], [(1, ())]⟩ :
          EmailState Unit) 0 10).2.2.1 = 1 ∧
      (rebuildEmbeddingsBatch (V := Unit) (fun _ => none)
        (⟨[(strOf "a", 1)], 2, [(1, ⟨strOf "a", [], [], [], [], [], []⟩)], [], [(1, ())]⟩ :
          EmailState Unit) 0 10).2.2.2.1 = 0 ∧
      (rebuildEmbeddingsBatch (V := Unit) (fun _ => none)
        (⟨[(strOf "a", 1)], 2, [(1, ⟨strOf "a", [], [], [], [], [], []⟩)], [], [(1, ())]⟩ :
          EmailState Unit) 0 10).1.vec = [(1, ())]) := by
  decide

/-- Unfolding of the email rebuild wrapper. -/
theorem rebuildEmbeddingsBatch_eq {V : Type} (engine : Str → Option V)
    (st : EmailState V) (lastRowid batchSize : Int) :
    rebuildEmbeddingsBatch engine st lastRowid batchSize =
      ({ st with vec := (rebuildBatchCore
          (fun d => prepareEmailText d.subject d.from_ d.to_ d.body)
          engine st.fts st.vec lastRowid batchSize).1 },
        (rebuildBatchCore
          (fun d => prepareEmailText d.subject d.from_ d.to_ d.body)
          engine st.fts st.vec lastRowid batchSize).2) := rfl

/-- Unfolding of the memory rebuild wrapper. -/
theorem rebuildMemoryEmbeddingsBatch_eq {V : Type} (engine : Str → Option V)
    (st : MemoryState V) (lastRowid batchSize : Int) :
    rebuildMemoryEmbeddingsBatch engine st lastRowid batchSize =
      ({ st with vec := (rebuildBatchCore
          (fun d => prepareMemoryText d.role d.content)
          engine st.fts st.vec lastRowid batchSize).1 },
        (rebuildBatchCore
          (fun d => prepareMemoryText d.role d.content)
          engine st.fts st.vec lastRowid batchSize).2) := rfl

attribute [irreducible] prepareEmailText

attribute [irreducible] prepareMemoryText

/-- C8 (amended): each rebuild-embeddings batch step fetches the rows with
rowid above the cursor, in ascending rowid order, at most `batch_size`
(negative meaning unlimited); `processed` is the number of rows fetched;
`embedded` counts the fetched rows whose embedding succeeds (a failing row
is skipped with no DELETE/INSERT, so an all-failing batch leaves the vec
table untouched); `new_last_rowid` is the cursor when the fetch is empty
and otherwise the largest fetched rowid; and `done` holds iff the fetch
was empty or strictly smaller than `batch_size` (for `batch_size ≥ 1` this
is the claimed "fewer than batch_size", but at `batch_size = 0` the two
differ). The same holds for the memory mirror. -/
theorem rebuild_batch_amended :
    (∀ (V : Type) (engine : Str → Option V) (st : EmailState V) (lastRowid batchSize : Int),
      ((rebuildEmbeddingsBatch engine st lastRowid batchSize).2.2.1 =
        ((selectBatch st.fts lastRowid batchSize).length : Int)) ∧
      ((rebuildEmbeddingsBatch engine st lastRowid batchSize).2.2.2.2 = true ↔
        (selectBatch st.fts lastRowid batchSize = [] ∨
          ((selectBatch st.fts lastRowid batchSize).length : Int) < batchSize)) ∧
      ((rebuildEmbeddingsBatch engine st lastRowid batchSize).2.2.2.1 =
        ((selectBatch st.fts lastRowid batchSize).countP
          (fun p => (engine (prepareEmailText p.2.subject p.2.from_ p.2.to_ p.2.body)).isSome) :
            Int)) ∧
      (∀ q ∈ selectBatch st.fts lastRowid batchSize, q ∈ st.fts ∧ lastRowid < q.1) ∧
      ((selectBatch st.fts lastRowid batchSize).Pairwise (fun a b => a.1 ≤ b.1)) ∧
      (selectBatch st.fts lastRowid batchSize = [] →
        (rebuildEmbeddingsBatch engine st lastRowid batchSize).2.1 = lastRowid) ∧
      (selectBatch st.fts lastRowid batchSize ≠ [] →
        (rebuildEmbeddingsBatch engine st lastRowid batchSize).2.1 ∈
          (selectBatch st.fts lastRowid batchSize).map Prod.fst ∧
        ∀ q ∈ selectBatch st.fts lastRowid batchSize,
          q.1 ≤ (rebuildEmbeddingsBatch engine st lastRowid batchSize).2.1) ∧
      ((∀ p ∈ selectBatch st.fts lastRowid batchSize,
          engine (prepareEmailText p.2.subject p.2.from_ p.2.to_ p.2.body) = none) →
        (rebuildEmbeddingsBatch engine st lastRowid batchSize).1.vec = st.vec)) ∧
    (∀ (V : Type) (engine : Str → Option V) (st : MemoryState V) (lastRowid batchSize : Int),
      ((rebuildMemoryEmbeddingsBatch engine st lastRowid batchSize).2.2.1 =
        ((selectBatch st.fts lastRowid batchSize).length : Int)) ∧
      ((rebuildMemoryEmbeddingsBatch engine st lastRowid batchSize).2.2.2.2 = true ↔
        (selectBatch st.fts lastRowid batchSize = [] ∨
          ((selectBatch st.fts lastRowid batchSize).length : Int) < batchSize)) ∧
      ((rebuildMemoryEmbeddingsBatch engine st lastRowid batchSize).2.2.2.1 =
        ((selectBatch st.fts lastRowid batchSize).countP
          (fun p => (engine (prepareMemoryText p.2.role p.2.content)).isSome) : Int)) ∧
      (∀ q ∈ selectBatch st.fts lastRowid batchSize, q ∈ st.fts ∧ lastRowid < q.1) ∧
      ((selectBatch st.fts lastRowid batchSize).Pairwise (fun a b => a.1 ≤ b.1)) ∧
      (selectBatch st.fts lastRowid batchSize = [] →
        (rebuildMemoryEmbeddingsBatch engine st lastRowid batchSize).2.1 = lastRowid) ∧
      (selectBatch st.fts lastRowid batchSize ≠ [] →
        (rebuildMemoryEmbeddingsBatch engine st lastRowid batchSize).2.1 ∈
          (selectBatch st.fts lastRowid batchSize).map Prod.fst ∧
        ∀ q ∈ selectBatch st.fts lastRowid batchSize,
          q.1 ≤ (rebuildMemoryEmbeddingsBatch engine st lastRowid batchSize).2.1) ∧
      ((∀ p ∈ selectBatch st.fts lastRowid batchSize,
          engine (prepareMemoryText p.2.role p.2.content) = none) →
        (rebuildMemoryEmbeddingsBatch engine st lastRowid batchSize).1.vec = st.vec)) := by
  constructor
  · intro V engine st lastRowid batchSize
    rw [rebuildEmbeddingsBatch_eq]
    dsimp only
    refine ⟨?_, ?_, ?_, ?_, ?_, ?_, ?_, ?_⟩
    · exact rebuildBatchCore_processed
        (fun d => prepareEmailText d.subject d.from_ d.to_ d.body) engine st.fts st.vec
        lastRowid batchSize
    · exact rebuildBatchCore_done
        (fun d => prepareEmailText d.subject d.from_ d.to_ d.body) engine st.fts st.vec
        lastRowid batchSize
    · exact rebuildBatchCore_embedded
        (fun d => prepareEmailText d.subject d.from_ d.to_ d.body) engine st.fts st.vec
        lastRowid batchSize
    · exact fun q hq => selectBatch_mem st.fts lastRowid batchSize q hq
    · exact selectBatch_sorted st.fts lastRowid batchSize
    · exact fun h => rebuildBatchCore_last_empty
        (fun d => prepareEmailText d.subject d.from_ d.to_ d.body) engine st.fts st.vec
        lastRowid batchSize h
    · exact fun h => rebuildBatchCore_last_max
        (fun d => prepareEmailText d.subject d.from_ d.to_ d.body) engine st.fts st.vec
        lastRowid batchSize h
    · exact fun h => rebuildBatchCore_vec_none
        (fun d => prepareEmailText d.subject d.from_ d.to_ d.body) engine st.fts st.vec
        lastRowid batchSize h
  · intro V engine st lastRowid batchSize
    rw [rebuildMemoryEmbeddingsBatch_eq]
    dsimp only
    refine ⟨?_, ?_, ?_, ?_, ?_, ?_, ?_, ?_⟩
    · exact rebuildBatchCore_processed
        (fun d => prepareMemoryText d.role d.content) engine st.fts st.vec
        lastRowid batchSize
    · exact rebuildBatchCore_done
        (fun d => prepareMemoryText d.role d.content) engine st.fts st.vec
        lastRowid batchSize
    · exact rebuildBatchCore_embedded
        (fun d => prepareMemoryText d.role d.content) engine st.fts st.vec
        lastRowid batchSize
    · exact fun q hq => selectBatch_mem st.fts lastRowid batchSize q hq
    · exact selectBatch_sorted st.fts lastRowid batchSize
    · exact fun h => rebuildBatchCore_last_empty
        (fun d => prepareMemoryText d.role d.content) engine st.fts st.vec
        lastRowid batchSize h
    · exact fun h => rebuildBatchCore_last_max
        (fun d => prepareMemoryText d.role d.content) engine st.fts st.vec
        lastRowid batchSize h
    · exact fun h => rebuildBatchCore_vec_none
        (fun d => prepareMemoryText d.role d.content) engine st.fts st.vec
        lastRowid batchSize h

/-- Witness for the amended C8: the batch contract instantiated on a
one-row email table with a succeeding engine, cursor 0 and batch size 10. -/
theorem rebuild_batch_witness :
    (selectBatch (⟨[(strOf "a", 1)], 2, [(1, ⟨strOf "a", [], [], [], [], [], []⟩)], [], []⟩ :
        EmailState Unit).fts 0 10 ≠ []) ∧
    (rebuildEmbeddingsBatch (V := Unit) (fun _ => some ())
        (⟨[(strOf "a", 1)], 2, [(1, ⟨strOf "a", [], [], [], [], [], []⟩)], [], []⟩ :
          EmailState Unit) 0 10).2.2.1 =
      ((selectBatch (⟨[(strOf "a", 1)], 2, [(1, ⟨strOf "a", [], [], [], [], [], []⟩)], [], []⟩ :
          EmailState Unit).fts 0 10).length : Int) ∧
    (rebuildEmbeddingsBatch (V := Unit) (fun _ => some ())
        (⟨[(strOf "a", 1)], 2, [(1, ⟨strOf "a", [], [], [], [], [], []⟩)], [], []⟩ :
          EmailState Unit) 0 10).2.1 ∈
      (selectBatch (⟨[(strOf "a", 1)], 2, [(1, ⟨strOf "a", [], [], [], [], [], []⟩)], [], []⟩ :
          EmailState Unit).fts 0 10).map Prod.fst :=
  ⟨by decide,
   (rebuild_batch_amended.1 Unit (fun _ => some ())
     (⟨[(strOf "a", 1)], 2, [(1, ⟨strOf "a", [], [], [], [], [], []⟩)], [], []⟩ :
       EmailState Unit) 0 10).1,
   ((rebuild_batch_amended.1 Unit (fun _ => some ())
     (⟨[(strOf "a", 1)], 2, [(1, ⟨strOf "a", [], [], [], [], [], []⟩)], [], []⟩ :
       EmailState Unit) 0 10).2.2.2.2.2.2.1 (by decide)).1⟩

/-- Descending insertion permutes a cons. -/
theorem insertHR_perm (a : HybridResult) (l : List HybridResult) :
    (insertHR a l).Perm (a :: l) := by
  induction l with
  | nil => rfl
  | cons b bs ih =>
    rw [insertHR]
    split
    · rfl
    · exact ((ih.cons b).trans (List.Perm.swap a b bs))

/-- The descending sort permutes its input. -/
theorem sortByFinalDesc_perm (l : List HybridResult) : (sortByFinalDesc l).Perm l := by
  induction l with
  | nil => rfl
  | cons x xs ih =>
    rw [sortByFinalDesc, List.foldr_cons]
    exact (insertHR_perm x _).trans (ih.cons x)

/-- A rowid has a text-map entry iff it occurs in the text candidates. -/
theorem textScoreAt_isSome_iff (text : List (Int × F64)) (r : Int) :
    (textScoreAt text r).isSome = true ↔ ∃ p ∈ text, p.1 = r := by
  unfold textScoreAt
  rw [Option.isSome_map']
  rw [List.find?_isSome]
  constructor
  · rintro ⟨p, hp, hb⟩
    exact ⟨p, List.mem_reverse.mp hp, beq_iff_eq.mp hb⟩
  · rintro ⟨p, hp, he⟩
    exact ⟨p, List.mem_reverse.mpr hp, beq_iff_eq.mpr he⟩

/-- A rowid has a vector-map entry iff it occurs in the vector candidates. -/
theorem vecScoreAt_isSome_iff (vec : List (Int × ℚ)) (r : Int) :
    (vecScoreAt vec r).isSome = true ↔ ∃ p ∈ vec, p.1 = r := by
  unfold vecScoreAt
  rw [Option.isSome_map']
  rw [List.find?_isSome]
  constructor
  · rintro ⟨p, hp, hb⟩
    exact ⟨p, List.mem_reverse.mp hp, beq_iff_eq.mp hb⟩
  · rintro ⟨p, hp, he⟩
    exact ⟨p, List.mem_reverse.mpr hp, beq_iff_eq.mpr he⟩

/-- The candidate map is the union by rowid of the two candidate sets. -/
theorem candScores_isSome_iff (text : List (Int × F64)) (vec : List (Int × ℚ)) (r : Int) :
    (candScores text vec r).isSome = true ↔
      ((∃ p ∈ text, p.1 = r) ∨ (∃ p ∈ vec, p.1 = r)) := by
  rw [← textScoreAt_isSome_iff, ← vecScoreAt_isSome_iff]
  unfold candScores
  cases ht : textScoreAt text r with
  | none =>
    cases hv : vecScoreAt vec r with
    | none => simp
    | some v => simp
  | some t =>
    cases hv : vecScoreAt vec r with
    | none => simp
    | some v => simp

/-- An absent text side contributes score 0 to the candidate map entry. -/
theorem candScores_text_absent (text : List (Int × F64)) (vec : List (Int × ℚ))
    (r : Int) (vs : ℚ) (ht : textScoreAt text r = none)
    (hv : vecScoreAt vec r = some vs) :
    candScores text vec r = some (0, vs) := by
  unfold candScores
  rw [ht, hv]
  rfl

/-- An absent vector side contributes score 0 to the candidate map entry. -/
theorem candScores_vec_absent (text : List (Int × F64)) (vec : List (Int × ℚ))
    (r : Int) (ts : ℚ) (ht : textScoreAt text r = some ts)
    (hv : vecScoreAt vec r = none) :
    candScores text vec r = some (ts, 0) := by
  unfold candScores
  rw [ht, hv]
  rfl

/-- Both sides present: the entry carries both scores. -/
theorem candScores_both (text : List (Int × F64)) (vec : List (Int × ℚ))
    (r : Int) (ts vs : ℚ) (ht : textScoreAt text r = some ts)
    (hv : vecScoreAt vec r = some vs) :
    candScores text vec r = some (ts, vs) := by
  unfold candScores
  rw [ht, hv]
  rfl

/-- Soundness of `mergeResults` membership: every returned result passes the
noise floor, carries exactly the candidate-map scores of its rowid, and its
final score is the weighted fusion of them. -/
theorem mergeResults_mem (text : List (Int × F64)) (vec : List (Int × ℚ))
    (vw tw : ℚ) (limit : Nat) (order : List Int) (h : HybridResult)
    (hmem : h ∈ mergeResults text vec vw tw limit order) :
    MIN_SCORE ≤ h.finalScore ∧
      candScores text vec h.rowid = some (h.textScore, h.vectorScore) ∧
      h.finalScore = vw * h.vectorScore + tw * h.textScore ∧
      h.rowid ∈ order := by
  unfold mergeResults at hmem
  dsimp only at hmem
  have h1 := List.take_subset _ _ hmem
  have h2 := (sortByFinalDesc_perm _).subset h1
  obtain ⟨h3, h4⟩ := List.mem_filter.mp h2
  obtain ⟨r, hr, h5⟩ := List.mem_filterMap.mp h3
  obtain ⟨⟨ts, vs⟩, h6, h7⟩ := Option.map_eq_some'.mp h5
  subst h7
  exact ⟨of_decide_eq_true h4, h6, rfl, hr⟩

/-- The merged list never exceeds the limit. -/
theorem mergeResults_length (text : List (Int × F64)) (vec : List (Int × ℚ))
    (vw tw : ℚ) (limit : Nat) (order : List Int) :
    (mergeResults text vec vw tw limit order).length ≤ limit := by
  unfold mergeResults
  exact (List.length_take _ _).trans_le (min_le_left _ _)

/-- Completeness of `mergeResults` under an admissible hash order and no
truncation: every candidate-map entry passing the noise floor appears. -/
theorem mergeResults_complete (text : List (Int × F64)) (vec : List (Int × ℚ))
    (vw tw : ℚ) (limit : Nat) (order : List Int)
    (hE : EnumeratesKeys order text vec) (hlim : order.length ≤ limit)
    (r : Int) (ts vs : ℚ) (hc : candScores text vec r = some (ts, vs))
    (hmin : MIN_SCORE ≤ vw * vs + tw * ts) :
    (⟨r, vw * vs + tw * ts, ts, vs⟩ : HybridResult) ∈
      mergeResults text vec vw tw limit order := by
  unfold mergeResults
  dsimp only
  have hr : r ∈ order := (hE.2 r).mpr (by rw [hc]; rfl)
  have key : ∀ (kept : List HybridResult),
      (⟨r, vw * vs + tw * ts, ts, vs⟩ : HybridResult) ∈ kept →
      kept.length ≤ limit →
      (⟨r, vw * vs + tw * ts, ts, vs⟩ : HybridResult) ∈
        (sortByFinalDesc kept).take limit := by
    intro kept hk hlen
    rw [List.take_of_length_le (by rw [(sortByFinalDesc_perm _).length_eq]; exact hlen)]
    exact (sortByFinalDesc_perm _).mem_iff.mpr hk
  apply key
  · exact List.mem_filter.mpr
      ⟨List.mem_filterMap.mpr ⟨r, hr, by rw [hc]; rfl⟩, decide_eq_true hmin⟩
  · exact le_trans (List.length_filter_le _ _)
      (le_trans (List.length_filterMap_le _ _) hlim)

/-- C2: the score fusion of hybrid search.  `text_score` is
`(-r)/(1+(-r))` for a negative finite BM25 rank and 0 for a positive or
non-finite one; `vec_score(d) = max(1-d, 0)`; the candidate map is the
union by rowid of the two candidate lists with an absent side contributing
0; every merged result passes the `MIN_SCORE = 0.1` floor, carries the
candidate-map scores of its rowid, and has
`final = vector_weight * vec_score + text_weight * text_score`; at most
`limit` results are returned, and (under any admissible hash iteration
order, without truncation) every candidate passing the floor is
returned. -/
theorem score_fusion :
    (∀ q : ℚ, bm25RankToScore (F64.fin q) =
        if q < 0 then (-q) / (1 + -q) else 0) ∧
    (bm25RankToScore F64.nan = 0 ∧ bm25RankToScore F64.inf = 0 ∧
      bm25RankToScore F64.neginf = 0) ∧
    (∀ d : ℚ, cosineDistanceToScore d = max (1 - d) 0) ∧
    (∀ (text : List (Int × F64)) (vec : List (Int × ℚ)) (r : Int),
      (candScores text vec r).isSome = true ↔
        ((∃ p ∈ text, p.1 = r) ∨ (∃ p ∈ vec, p.1 = r))) ∧
    (∀ (text : List (Int × F64)) (vec : List (Int × ℚ)) (r : Int) (vs : ℚ),
      textScoreAt text r = none → vecScoreAt vec r = some vs →
      candScores text vec r = some (0, vs)) ∧
    (∀ (text : List (Int × F64)) (vec : List (Int × ℚ)) (r : Int) (ts : ℚ),
      textScoreAt text r = some ts → vecScoreAt vec r = none →
      candScores text vec r = some (ts, 0)) ∧
    (∀ (text : List (Int × F64)) (vec : List (Int × ℚ)) (vw tw : ℚ)
      (limit : Nat) (order : List Int) (h : HybridResult),
      h ∈ mergeResults text vec vw tw limit order →
      MIN_SCORE ≤ h.finalScore ∧
      candScores text vec h.rowid = some (h.textScore, h.vectorScore) ∧
      h.finalScore = vw * h.vectorScore + tw * h.textScore) ∧
    (∀ (text : List (Int × F64)) (vec : List (Int × ℚ)) (vw tw : ℚ)
      (limit : Nat) (order : List Int),
      (mergeResults text vec vw tw limit order).length ≤ limit) ∧
    (∀ (text : List (Int × F64)) (vec : List (Int × ℚ)) (vw tw : ℚ)
      (limit : Nat) (order : List Int),
      EnumeratesKeys order text vec → order.length ≤ limit →
      ∀ (r : Int) (ts vs : ℚ), candScores text vec r = some (ts, vs) →
        MIN_SCORE ≤ vw * vs + tw * ts →
        (⟨r, vw * vs + tw * ts, ts, vs⟩ : HybridResult) ∈
          mergeResults text vec vw tw limit order) ∧
    MIN_SCORE = 1 / 10 := by
  refine ⟨?_, ⟨?_, ?_, ?_⟩, ?_, ?_, ?_, ?_, ?_, ?_, ?_, rfl⟩
  · intro q
    unfold bm25RankToScore
    dsimp only
    by_cases hq : q < 0
    · rw [if_pos hq, max_eq_left (by linarith)]
    · rw [if_neg hq, max_eq_right (by linarith)]
      norm_num
  · norm_num [bm25RankToScore]
  · norm_num [bm25RankToScore]
  · norm_num [bm25RankToScore]
  · intro d
    rfl
  · exact candScores_isSome_iff
  · exact candScores_text_absent
  · exact candScores_vec_absent
  · exact fun text vec vw tw limit order h hm =>
      ⟨(mergeResults_mem text vec vw tw limit order h hm).1,
       (mergeResults_mem text vec vw tw limit order h hm).2.1,
       (mergeResults_mem text vec vw tw limit order h hm).2.2.1⟩
  · exact mergeResults_length
  · exact fun text vec vw tw limit order hE hlim r ts vs hc hmin =>
      mergeResults_complete text vec vw tw limit order hE hlim r ts vs hc hmin

/-- Witness for C2: the fusion facts instantiated on one text candidate
with BM25 rank −1 (text score 1/2, final 3/20) merged at the email
weights. -/
theorem score_fusion_witness :
    MIN_SCORE ≤ (⟨1, 3/20, 1/2, 0⟩ : HybridResult).finalScore ∧
    candScores [(1, F64.fin (-1))] []
        (⟨1, 3/20, 1/2, 0⟩ : HybridResult).rowid =
      some ((⟨1, 3/20, 1/2, 0⟩ : HybridResult).textScore,
        (⟨1, 3/20, 1/2, 0⟩ : HybridResult).vectorScore) ∧
    (⟨1, 3/20, 1/2, 0⟩ : HybridResult).finalScore =
      (7/10 : ℚ) * (⟨1, 3/20, 1/2, 0⟩ : HybridResult).vectorScore +
        (3/10 : ℚ) * (⟨1, 3/20, 1/2, 0⟩ : HybridResult).textScore := by
  have hm : (⟨1, 3/20, 1/2, 0⟩ : HybridResult) ∈
      mergeResults [(1, F64.fin (-1))] [] (7/10) (3/10) 10 [1] := by
    norm_num [mergeResults, candScores, textScoreAt, vecScoreAt, bm25RankToScore,
      sortByFinalDesc, insertHR, MIN_SCORE, List.filterMap, List.find?]
  exact score_fusion.2.2.2.2.2.2.1 [(1, F64.fin (-1))] [] (7/10) (3/10) 10 [1]
    (⟨1, 3/20, 1/2, 0⟩ : HybridResult) hm

/-- Descending insertion preserves sortedness by descending final score. -/
theorem insertHR_sorted (a : HybridResult) (l : List HybridResult)
    (h : l.Pairwise (fun x y => y.finalScore ≤ x.finalScore)) :
    (insertHR a l).Pairwise (fun x y => y.finalScore ≤ x.finalScore) := by
  induction l with
  | nil => simp [insertHR]
  | cons b bs ih =>
    rw [insertHR]
    split
    · rename_i hle
      refine List.Pairwise.cons ?_ h
      intro x hx
      rcases List.mem_cons.mp hx with rfl | hx2
      · exact hle
      · exact le_trans (List.rel_of_pairwise_cons h hx2) hle
    · rename_i hgt
      refine List.Pairwise.cons ?_ (ih h.of_cons)
      intro x hx
      rcases List.mem_cons.mp ((insertHR_perm a bs).mem_iff.mp hx) with rfl | hx2
      · linarith [lt_of_not_le hgt]
      · exact List.rel_of_pairwise_cons h hx2

/-- The descending sort output is sorted. -/
theorem sortByFinalDesc_sorted (l : List HybridResult) :
    (sortByFinalDesc l).Pairwise (fun x y => y.finalScore ≤ x.finalScore) := by
  induction l with
  | nil => exact List.Pairwise.nil
  | cons x xs ih =>
    rw [sortByFinalDesc, List.foldr_cons]
    exact insertHR_sorted x _ ih

/-- Inserting an element of a different score leaves a score class alone. -/
theorem insertHR_filter_ne (a : HybridResult) (l : List HybridResult) (c : ℚ)
    (ha : (a.finalScore == c) = false) :
    (insertHR a l).filter (fun x => x.finalScore == c) =
      l.filter (fun x => x.finalScore == c) := by
  induction l with
  | nil => simp [insertHR, ha]
  | cons b bs ih =>
    rw [insertHR]
    split
    · rw [List.filter_cons, ha, if_neg Bool.false_ne_true]
    · rw [List.filter_cons, List.filter_cons]
      cases hb : b.finalScore == c with
      | true => rw [ih]
      | false => exact ih

/-- Inserting into a descending-sorted list puts the element at the front
of its score class. -/
theorem insertHR_filter_eq (a : HybridResult) (l : List HybridResult) (c : ℚ)
    (ha : (a.finalScore == c) = true)
    (hs : l.Pairwise (fun x y => y.finalScore ≤ x.finalScore)) :
    (insertHR a l).filter (fun x => x.finalScore == c) =
      a :: l.filter (fun x => x.finalScore == c) := by
  induction l with
  | nil => simp [insertHR, ha]
  | cons b bs ih =>
    rw [insertHR]
    split
    · rw [List.filter_cons, ha, if_pos rfl]
    · rename_i hgt
      have hb : (b.finalScore == c) = false := by
        have hac : a.finalScore = c := beq_iff_eq.mp ha
        refine beq_eq_false_iff_ne.mpr ?_
        intro hbc
        exact hgt (by rw [hbc, ← hac])
      simp only [List.filter_cons, hb, Bool.false_eq_true, if_false]
      exact ih hs.of_cons

/-- `sortByFinalDesc` is stable: each score class keeps its input order. -/
theorem sortByFinalDesc_stable (l : List HybridResult) (c : ℚ) :
    (sortByFinalDesc l).filter (fun x => x.finalScore == c) =
      l.filter (fun x => x.finalScore == c) := by
  induction l with
  | nil => rfl
  | cons x xs ih =>
    rw [sortByFinalDesc, List.foldr_cons,
      show List.foldr insertHR [] xs = sortByFinalDesc xs from rfl, List.filter_cons]
    cases hx : x.finalScore == c with
    | true =>
      rw [insertHR_filter_eq x (sortByFinalDesc xs) c hx (sortByFinalDesc_sorted xs), ih,
        if_pos rfl]
    | false =>
      rw [insertHR_filter_ne x (sortByFinalDesc xs) c hx, ih, if_neg Bool.false_ne_true]

/-- The merged list is sorted by descending final score. -/
theorem mergeResults_sorted (text : List (Int × F64)) (vec : List (Int × ℚ))
    (vw tw : ℚ) (limit : Nat) (order : List Int) :
    (mergeResults text vec vw tw limit order).Pairwise
      (fun a b => b.finalScore ≤ a.finalScore) := by
  unfold mergeResults
  exact (sortByFinalDesc_sorted _).sublist (List.take_sublist _ _)

/-- Without truncation, each score class of the merged list is exactly the
corresponding class of the filtered candidate items, in hash-iteration
order: the sort is stable with respect to the map iteration order. -/
theorem mergeResults_stable (text : List (Int × F64)) (vec : List (Int × ℚ))
    (vw tw : ℚ) (limit : Nat) (order : List Int)
    (hlim : order.length ≤ limit) (c : ℚ) :
    (mergeResults text vec vw tw limit order).filter
        (fun h => h.finalScore == c) =
      ((order.filterMap (fun r =>
        (candScores text vec r).map (fun ts_vs =>
          { rowid := r,
            finalScore := vw * ts_vs.2 + tw * ts_vs.1,
            textScore := ts_vs.1,
            vectorScore := ts_vs.2 }))).filter
        (fun h => MIN_SCORE ≤ h.finalScore)).filter
        (fun h => h.finalScore == c) := by
  unfold mergeResults
  dsimp only
  rw [List.take_of_length_le (by
    rw [(sortByFinalDesc_perm _).length_eq]
    exact le_trans (List.length_filter_le _ _)
      (le_trans (List.length_filterMap_le _ _) hlim))]
  exact sortByFinalDesc_stable _ c

/-- C3 counterexample: ties do NOT resolve by insertion order.  Two text
candidates with the same BM25 rank tie on the final score; the hash-map
iteration order `[2, 1]` is admissible (it enumerates exactly the map's
keys), and with it the merged list comes out `[2, 1]` — not the text
insertion order `[1, 2]`.  The tie order is the unspecified hash order,
which the code does nothing to canonicalize. -/
theorem hybrid_tie_order_counterexample :
    EnumeratesKeys [2, 1] [(1, F64.fin (-1)), (2, F64.fin (-1))] [] ∧
    (mergeResults [(1, F64.fin (-1)), (2, F64.fin (-1))] [] (7/10) (3/10) 10
        [2, 1]).map HybridResult.rowid = [2, 1] ∧
    (mergeResults [(1, F64.fin (-1)), (2, F64.fin (-1))] [] (7/10) (3/10) 10
        [1, 2]).map HybridResult.rowid = [1, 2] := by
  refine ⟨⟨by decide, ?_⟩, ?_, ?_⟩
  · intro r
    by_cases h2 : r = 2
    · subst h2
      exact ⟨fun _ => by decide, fun _ => by decide⟩
    · by_cases h1 : r = 1
      · subst h1
        exact ⟨fun _ => by decide, fun _ => by decide⟩
      · constructor
        · intro hr
          rcases List.mem_cons.mp hr with rfl | hr2
          · exact absurd rfl h2
          · rcases List.mem_cons.mp hr2 with rfl | hr3
            · exact absurd rfl h1
            · exact absurd hr3 (List.not_mem_nil r)
        · intro hs
          rcases (candScores_isSome_iff _ _ r).mp hs with ⟨p, hp, hpr⟩ | ⟨p, hp, hpr⟩
          · rcases List.mem_cons.mp hp with rfl | hp2
            · exact absurd hpr.symm h1
            · rcases List.mem_cons.mp hp2 with rfl | hp3
              · exact absurd hpr.symm h2
              · exact absurd hp3 (List.not_mem_nil p)
          · exact absurd hp (List.not_mem_nil p)
  · norm_num [mergeResults, candScores, textScoreAt, vecScoreAt, bm25RankToScore,
      sortByFinalDesc, insertHR, MIN_SCORE, List.filterMap, List.find?, List.filter,
      List.foldr, Option.map, Option.getD]
  · norm_num [mergeResults, candScores, textScoreAt, vecScoreAt, bm25RankToScore,
      sortByFinalDesc, insertHR, MIN_SCORE, List.filterMap, List.find?, List.filter,
      List.foldr, Option.map, Option.getD]

/-- C3 (amended): the merged hybrid list is sorted by final score in
non-increasing order and truncated to at most `limit` entries; the sort is
stable (each score class keeps its input order, and the sort permutes its
input); hence, without truncation, results with equal final score appear
in the order in which `HashMap::into_values` yields them — which is an
unspecified hash order, not necessarily text-insertion order followed by
vector-only insertion order. -/
theorem hybrid_sort_amended :
    (∀ (text : List (Int × F64)) (vec : List (Int × ℚ)) (vw tw : ℚ)
      (limit : Nat) (order : List Int),
      (mergeResults text vec vw tw limit order).Pairwise
        (fun a b => b.finalScore ≤ a.finalScore)) ∧
    (∀ (text : List (Int × F64)) (vec : List (Int × ℚ)) (vw tw : ℚ)
      (limit : Nat) (order : List Int),
      (mergeResults text vec vw tw limit order).length ≤ limit) ∧
    (∀ l : List HybridResult, (sortByFinalDesc l).Perm l) ∧
    (∀ (l : List HybridResult) (c : ℚ),
      (sortByFinalDesc l).filter (fun x => x.finalScore == c) =
        l.filter (fun x => x.finalScore == c)) ∧
    (∀ (text : List (Int × F64)) (vec : List (Int × ℚ)) (vw tw : ℚ)
      (limit : Nat) (order : List Int), order.length ≤ limit → ∀ c : ℚ,
      (mergeResults text vec vw tw limit order).filter
          (fun h => h.finalScore == c) =
        ((order.filterMap (fun r =>
          (candScores text vec r).map (fun ts_vs =>
            { rowid := r,
              finalScore := vw * ts_vs.2 + tw * ts_vs.1,
              textScore := ts_vs.1,
              vectorScore := ts_vs.2 }))).filter
          (fun h => MIN_SCORE ≤ h.finalScore)).filter
          (fun h => h.finalScore == c)) :=
  ⟨mergeResults_sorted, mergeResults_length, sortByFinalDesc_perm,
   sortByFinalDesc_stable,
   fun text vec vw tw limit order hlim c =>
     mergeResults_stable text vec vw tw limit order hlim c⟩

/-- Witness for the amended C3: the stability equation instantiated on the
tied two-candidate example at hash order `[2, 1]`, tie class `3/20`. -/
theorem hybrid_sort_witness :
    ([2, 1] : List Int).length ≤ 10 ∧
    (mergeResults [(1, F64.fin (-1)), (2, F64.fin (-1))] [] (7/10) (3/10) 10
        [2, 1]).filter (fun h => h.finalScore == (3/20 : ℚ)) =
      ((([2, 1] : List Int).filterMap (fun r =>
        (candScores [(1, F64.fin (-1)), (2, F64.fin (-1))] [] r).map (fun ts_vs =>
          { rowid := r,
            finalScore := (7/10 : ℚ) * ts_vs.2 + (3/10 : ℚ) * ts_vs.1,
            textScore := ts_vs.1,
            vectorScore := ts_vs.2 }))).filter
        (fun h => MIN_SCORE ≤ h.finalScore)).filter
        (fun h => h.finalScore == (3/20 : ℚ)) :=
  ⟨by decide,
   hybrid_sort_amended.2.2.2.2 [(1, F64.fin (-1)), (2, F64.fin (-1))] []
     (7/10) (3/10) 10 [2, 1] (by decide) (3/20)⟩

/-- C7 counterexample: with both library parsers rejecting the string
(modelling `"garbage"`), `parse_date_param` produces the explicit error,
and the FTS-only path propagates it — but the hybrid search path converts
it to `None` via `.ok().flatten()`, silently dropping the date filter
instead of erroring. -/
theorem date_param_counterexample :
    parseDateParam (fun _ => none) (fun _ => none) (JVal.str (strOf "garbage")) =
      DateParse.invalid ∧
    ftsOnlyFromTs (fun _ => none) (fun _ => none)
        (JVal.obj [(strOf "from", JVal.str (strOf "garbage"))]) =
      DateParse.invalid ∧
    hybridFromTs (fun _ => none) (fun _ => none)
        (JVal.obj [(strOf "from", JVal.str (strOf "garbage"))]) = none := by
  decide

/-- C7 (amended): `parse_date_param` accepts null/missing (→ no filter),
i64 and f64 numbers (saturating cast), and trimmed strings through the
RFC 3339 parser (after `Z` → `+00:00` normalization) or the `f64` parser;
an unparsable nonempty string yields the explicit
`Invalid date format` error.  The error propagates to the response in
`search_fts_only` / `memory_search_fts_only` (`parse_date_param(v)?`) and
in `query_by_date_range`, but the hybrid `search` / `memory_search` paths
silently convert it to `None` via `.ok().flatten()`. -/
theorem date_param_amended :
    (∀ (pRfc : Str → Option Int) (pF64 : Str → Option F64),
      parseDateParam pRfc pF64 JVal.null = .ok none ∧
      (∀ i : Int, parseDateParam pRfc pF64 (JVal.int i) = .ok (some i)) ∧
      (∀ q : ℚ, parseDateParam pRfc pF64 (JVal.float q) =
        .ok (some (f64AsI64 (.fin q)))) ∧
      (∀ s : Str, (rustTrim s).isEmpty = true →
        parseDateParam pRfc pF64 (JVal.str s) = .ok none) ∧
      (∀ (s : Str) (ms : Int), (rustTrim s).isEmpty = false →
        pRfc (zNormalize (rustTrim s)) = some ms →
        parseDateParam pRfc pF64 (JVal.str s) = .ok (some ms)) ∧
      (∀ (s : Str) (f : F64), (rustTrim s).isEmpty = false →
        pRfc (zNormalize (rustTrim s)) = none →
        pF64 (zNormalize (rustTrim s)) = some f →
        parseDateParam pRfc pF64 (JVal.str s) = .ok (some (f64AsI64 f))) ∧
      (∀ s : Str, (rustTrim s).isEmpty = false →
        pRfc (zNormalize (rustTrim s)) = none →
        pF64 (zNormalize (rustTrim s)) = none →
        parseDateParam pRfc pF64 (JVal.str s) = .invalid)) ∧
    (∀ (pRfc : Str → Option Int) (pF64 : Str → Option F64) (params v : JVal),
      getIgnoreDate params = false → params.get (strOf "from") = some v →
      parseDateParam pRfc pF64 v = .invalid →
      ftsOnlyFromTs pRfc pF64 params = .invalid) ∧
    (∀ (pRfc : Str → Option Int) (pF64 : Str → Option F64) (params v : JVal),
      getIgnoreDate params = false → params.get (strOf "to") = some v →
      parseDateParam pRfc pF64 v = .invalid →
      ftsOnlyToTs pRfc pF64 params = .invalid) ∧
    (∀ (pRfc : Str → Option Int) (pF64 : Str → Option F64) (fromV toV : JVal),
      parseDateParam pRfc pF64 fromV = .invalid →
      queryByDateRangeCheck pRfc pF64 fromV toV = .errInvalid) ∧
    (∀ (pRfc : Str → Option Int) (pF64 : Str → Option F64) (params v : JVal),
      params.get (strOf "from") = some v →
      parseDateParam pRfc pF64 v = .invalid →
      hybridFromTs pRfc pF64 params = none) ∧
    (∀ (pRfc : Str → Option Int) (pF64 : Str → Option F64) (params v : JVal),
      params.get (strOf "to") = some v →
      parseDateParam pRfc pF64 v = .invalid →
      hybridToTs pRfc pF64 params = none) := by
  refine ⟨fun pRfc pF64 => ⟨rfl, fun i => rfl, fun q => rfl, ?_, ?_, ?_, ?_⟩,
    ?_, ?_, ?_, ?_, ?_⟩
  · intro s h
    have h' : rustTrim s = [] := List.isEmpty_iff.mp h
    simp [parseDateParam, JVal.isNull, JVal.asI64, JVal.asF64, JVal.asStr, h']
  · intro s ms h hr
    have h' : ¬(rustTrim s = []) := by simpa [List.isEmpty_iff] using h
    simp [parseDateParam, JVal.isNull, JVal.asI64, JVal.asF64, JVal.asStr, h', hr]
  · intro s f h hr hf
    have h' : ¬(rustTrim s = []) := by simpa [List.isEmpty_iff] using h
    simp [parseDateParam, JVal.isNull, JVal.asI64, JVal.asF64, JVal.asStr, h', hr, hf]
  · intro s h hr hf
    have h' : ¬(rustTrim s = []) := by simpa [List.isEmpty_iff] using h
    simp [parseDateParam, JVal.isNull, JVal.asI64, JVal.asF64, JVal.asStr, h', hr, hf]
  · intro pRfc pF64 params v hig hv hp
    unfold ftsOnlyFromTs
    simp only [hig, Bool.false_eq_true, if_false]
    rw [hv]
    exact hp
  · intro pRfc pF64 params v hig hv hp
    unfold ftsOnlyToTs
    simp only [hig, Bool.false_eq_true, if_false]
    rw [hv]
    exact hp
  · intro pRfc pF64 fromV toV h
    unfold queryByDateRangeCheck
    rw [h]
  · intro pRfc pF64 params v hv hp
    unfold hybridFromTs
    by_cases hig : getIgnoreDate params = true
    · rw [if_pos hig]
    · rw [if_neg hig, hv]
      show (match parseDateParam pRfc pF64 v with
        | .ok t => t
        | .invalid => none) = none
      rw [hp]
  · intro pRfc pF64 params v hv hp
    unfold hybridToTs
    by_cases hig : getIgnoreDate params = true
    · rw [if_pos hig]
    · rw [if_neg hig, hv]
      show (match parseDateParam pRfc pF64 v with
        | .ok t => t
        | .invalid => none) = none
      rw [hp]

/-- Witness for the amended C7: the unparsable string "garbage" (both
library parsers rejecting) produces the explicit error, and the FTS-only
`from` filter propagates it. -/
theorem date_param_witness :
    (rustTrim (strOf "garbage")).isEmpty = false ∧
    parseDateParam (fun _ => none) (fun _ => none)
        (JVal.str (strOf "garbage")) = DateParse.invalid ∧
    ftsOnlyFromTs (fun _ => none) (fun _ => none)
        (JVal.obj [(strOf "garbage_key_unused", JVal.null),
          (strOf "from", JVal.str (strOf "garbage"))]) = DateParse.invalid :=
  ⟨by decide,
   (date_param_amended.1 (fun _ => none) (fun _ => none)).2.2.2.2.2.2
     (strOf "garbage") (by decide) rfl rfl,
   date_param_amended.2.1 (fun _ => none) (fun _ => none)
     (JVal.obj [(strOf "garbage_key_unused", JVal.null),
       (strOf "from", JVal.str (strOf "garbage"))])
     (JVal.str (strOf "garbage")) (by decide) rfl (by decide)⟩

/-- C4 counterexample: indexing a document whose prepared embedding text is
empty stores the 384-dimensional zero vector in `messages_vec`; its L2 norm
is 0, so `|‖v‖₂ − 1| = 1 > 1e-5` — the claimed unit-norm invariant fails on
exactly the "in particular" case the claim asserts. -/
theorem vector_unit_norm_counterexample :
    (indexRow (V := Fin EMBEDDING_DIMS → ℝ) (some (engineEmbed (fun _ => none)))
        (emptyEmailState (Fin EMBEDDING_DIMS → ℝ))
        (JVal.obj [(strOf "msgId", JVal.str (strOf "a"))])).1.vec =
      [(1, zeroVec)] ∧
    Real.sqrt (normSq zeroVec) = 0 ∧
    ¬ (|Real.sqrt (normSq zeroVec) - 1| ≤ 1 / 10 ^ 5) := by
  refine ⟨?_, ?_, ?_⟩
  · have hpe : prepareEmailText [] [] [] [] = [] := by
      unfold prepareEmailText
      rfl
    have he : engineEmbed (fun _ => none) (prepareEmailText [] [] [] []) =
        some zeroVec := by
      rw [hpe]
      rfl
    have h1 : jgetStrD (JVal.obj [(strOf "msgId", JVal.str (strOf "a"))]) "subject" =
        [] := rfl
    have h2 : emailFrom (JVal.obj [(strOf "msgId", JVal.str (strOf "a"))]) = [] := rfl
    have h3 : emailTo (JVal.obj [(strOf "msgId", JVal.str (strOf "a"))]) = [] := rfl
    have h4 : jgetStrD (JVal.obj [(strOf "msgId", JVal.str (strOf "a"))]) "body" =
        [] := rfl
    unfold indexRow
    rw [show jgetStr (JVal.obj [(strOf "msgId", JVal.str (strOf "a"))]) "msgId" =
      some (strOf "a") from rfl]
    dsimp only
    rw [if_neg (by decide : ¬((strOf "a").isEmpty = true))]
    rw [if_neg (by decide :
      ¬((((emptyEmailState (Fin EMBEDDING_DIMS → ℝ)).ids).lookup (strOf "a")).isSome = true))]
    rw [h1, h2, h3, h4, he]
    rfl
  · rw [show normSq zeroVec = 0 from by simp [normSq, zeroVec]]
    exact Real.sqrt_zero
  · rw [show normSq zeroVec = 0 from by simp [normSq, zeroVec]]
    rw [Real.sqrt_zero]
    norm_num

/-- Every vector held after the rebuild loop was already stored or was
produced by the engine. -/
theorem rebuildFold_fst_mem {V R : Type} (textOf : R → Str) (engine : Str → Option V) :
    ∀ (batch : List (Int × R)) (v : List (Int × V)) (l c : Int) (p : Int × V),
      p ∈ (batch.foldl (fun (acc : List (Int × V) × Int × Int) p =>
        match engine (textOf p.2) with
        | some emb => (vecDeleteInsert acc.1 p.1 emb, p.1, acc.2.2 + 1)
        | none => (acc.1, p.1, acc.2.2)) (v, l, c)).1 →
      p ∈ v ∨ ∃ t, engine t = some p.2 := by
  intro batch
  induction batch with
  | nil => intro v l c p hp; exact Or.inl hp
  | cons q qs ih =>
    intro v l c p hp
    rw [List.foldl_cons] at hp
    cases he : engine (textOf q.2) with
    | none =>
      dsimp only at hp
      rw [he] at hp
      dsimp only at hp
      exact ih _ _ _ p hp
    | some emb =>
      dsimp only at hp
      rw [he] at hp
      dsimp only at hp
      rcases ih _ _ _ p hp with h1 | h2
      · unfold vecDeleteInsert at h1
        rcases List.mem_append.mp h1 with h3 | h4
        · exact Or.inl (List.mem_of_mem_filter h3)
        · have hpq : p = (q.1, emb) := List.mem_singleton.mp h4
          exact Or.inr ⟨textOf q.2, by rw [he, hpq]⟩
      · exact Or.inr h2

/-- C4 (amended): L2 normalization yields a unit vector whenever the
pooled vector's norm is at least the `1e-12` clamp; the zero vector (norm
0, stored verbatim for documents whose prepared embedding text is empty or
whitespace) is the exception to the claimed invariant.  Every vector stored
by `indexRow` / `memoryIndexRow` / a rebuild batch comes from the embedding
engine (or was already stored), and every engine output is either the zero
vector for empty input or an L2-normalized mean-pooled vector. -/
theorem vector_unit_norm_amended :
    (∀ v : Fin EMBEDDING_DIMS → ℝ, 1 / 10 ^ 12 ≤ Real.sqrt (normSq v) →
      Real.sqrt (normSq (l2Normalize v)) = 1) ∧
    Real.sqrt (normSq zeroVec) = 0 ∧
    (∀ (forward : Str → Option TokOutput) (t : Str) (v : Fin EMBEDDING_DIMS → ℝ),
      engineEmbed forward t = some v →
      ((rustTrim t).isEmpty = true ∧ v = zeroVec) ∨
      (∃ o : TokOutput, forward t = some o ∧
        v = l2Normalize (meanPooling o.1 o.2.1 o.2.2))) ∧
    (∀ (V : Type) (e : Str → Option V) (st : EmailState V) (row : JVal) (p : Int × V),
      p ∈ (indexRow (some e) st row).1.vec → p ∈ st.vec ∨ ∃ t, e t = some p.2) ∧
    (∀ (V : Type) (e : Str → Option V) (st : MemoryState V) (row : JVal) (p : Int × V),
      p ∈ (memoryIndexRow (some e) st row).1.vec → p ∈ st.vec ∨ ∃ t, e t = some p.2) ∧
    (∀ (V R : Type) (textOf : R → Str) (e : Str → Option V)
      (fts : List (Int × R)) (vec : List (Int × V)) (l b : Int) (p : Int × V),
      p ∈ (rebuildBatchCore textOf e fts vec l b).1 →
      p ∈ vec ∨ ∃ t, e t = some p.2) := by
  refine ⟨?_, ?_, ?_, ?_, ?_, ?_⟩
  · intro v h
    have hc : (0 : ℝ) < 1 / 10 ^ 12 := by norm_num
    have hS0 : 0 < Real.sqrt (normSq v) := lt_of_lt_of_le hc h
    have hSpos : 0 < normSq v := Real.sqrt_pos.mp hS0
    have hmax : ∀ j, l2Normalize v j = v j / Real.sqrt (normSq v) := by
      intro j
      unfold l2Normalize
      rw [max_eq_left h]
    have hns : normSq (l2Normalize v) = normSq v / Real.sqrt (normSq v) ^ 2 := by
      calc normSq (l2Normalize v)
          = ∑ k, (l2Normalize v k) ^ 2 := rfl
        _ = ∑ k, (v k / Real.sqrt (normSq v)) ^ 2 :=
            Finset.sum_congr rfl (fun k _ => by rw [hmax k])
        _ = ∑ k, (v k) ^ 2 / Real.sqrt (normSq v) ^ 2 :=
            Finset.sum_congr rfl (fun k _ => div_pow _ _ 2)
        _ = (∑ k, (v k) ^ 2) / Real.sqrt (normSq v) ^ 2 := by
            rw [← Finset.sum_div]
        _ = normSq v / Real.sqrt (normSq v) ^ 2 := rfl
    rw [hns, Real.sq_sqrt (le_of_lt hSpos), div_self (ne_of_gt hSpos), Real.sqrt_one]
  · rw [show normSq zeroVec = 0 from by simp [normSq, zeroVec], Real.sqrt_zero]
  · intro forward t v h
    unfold engineEmbed at h
    by_cases he : (rustTrim t).isEmpty = true
    · rw [if_pos he] at h
      exact Or.inl ⟨he, (Option.some.inj h).symm⟩
    · rw [if_neg he] at h
      cases hf : forward t with
      | none =>
        rw [hf] at h
        exact absurd h (by simp)
      | some o =>
        rw [hf, Option.map_some'] at h
        exact Or.inr ⟨o, rfl, (Option.some.inj h).symm⟩
  · intro V e st row p hp
    unfold indexRow at hp
    cases hm : jgetStr row "msgId" with
    | none => rw [hm] at hp; exact Or.inl hp
    | some m =>
      rw [hm] at hp
      dsimp only at hp
      by_cases he : m.isEmpty = true
      · rw [if_pos he] at hp
        exact Or.inl hp
      · rw [if_neg he] at hp
        by_cases hl : (st.ids.lookup m).isSome = true
        · rw [if_pos hl] at hp
          exact Or.inl hp
        · rw [if_neg hl] at hp
          dsimp only at hp
          cases hemb : e (prepareEmailText (jgetStrD row "subject") (emailFrom row)
              (emailTo row) (jgetStrD row "body")) with
          | none =>
            rw [hemb] at hp
            exact Or.inl hp
          | some emb =>
            rw [hemb] at hp
            rcases List.mem_append.mp hp with h1 | h2
            · exact Or.inl h1
            · have hpq : p = (st.nextRowid, emb) := List.mem_singleton.mp h2
              exact Or.inr ⟨_, by rw [hemb, hpq]⟩
  · intro V e st row p hp
    unfold memoryIndexRow at hp
    cases hm : jgetStr row "memId" with
    | none => rw [hm] at hp; exact Or.inl hp
    | some m =>
      rw [hm] at hp
      dsimp only at hp
      by_cases he : m.isEmpty = true
      · rw [if_pos he] at hp
        exact Or.inl hp
      · rw [if_neg he] at hp
        by_cases hl : (st.ids.lookup m).isSome = true
        · rw [if_pos hl] at hp
          exact Or.inl hp
        · rw [if_neg hl] at hp
          dsimp only at hp
          cases hemb : e (prepareMemoryText (jgetStrD row "role")
              (jgetStrD row "content")) with
          | none =>
            rw [hemb] at hp
            exact Or.inl hp
          | some emb =>
            rw [hemb] at hp
            rcases List.mem_append.mp hp with h1 | h2
            · exact Or.inl h1
            · have hpq : p = (st.nextRowid, emb) := List.mem_singleton.mp h2
              exact Or.inr ⟨_, by rw [hemb, hpq]⟩
  · intro V R textOf e fts vec l b p hp
    by_cases hb : selectBatch fts l b = []
    · rw [rebuildBatchCore_empty textOf e fts vec l b hb] at hp
      exact Or.inl hp
    · unfold rebuildBatchCore at hp
      dsimp only at hp
      rw [if_neg (fun hc => hb (List.isEmpty_iff.mp hc))] at hp
      dsimp only at hp
      exact rebuildFold_fst_mem textOf e _ vec l 0 p hp

/-- Witness for the amended C4: the all-ones 384-vector normalizes to unit
norm (its norm `√384` clears the `1e-12` clamp), and the engine's output on
the empty string is classified as the zero-vector case. -/
theorem vector_unit_norm_witness :
    (1 / 10 ^ 12 ≤ Real.sqrt (normSq (fun _ => 1)) ∧
      Real.sqrt (normSq (l2Normalize (fun _ => 1))) = 1) ∧
    (((rustTrim ([] : Str)).isEmpty = true ∧ zeroVec = zeroVec) ∨
      (∃ o : TokOutput, (fun _ => (none : Option TokOutput)) ([] : Str) = some o ∧
        zeroVec = l2Normalize (meanPooling o.1 o.2.1 o.2.2))) := by
  have hn : normSq (fun _ => (1 : ℝ)) = 384 := by
    unfold normSq
    simp only [one_pow, Finset.sum_const, Finset.card_univ, Fintype.card_fin,
      nsmul_eq_mul, mul_one]
    norm_num [EMBEDDING_DIMS]
  have hsqrt : 1 / 10 ^ 12 ≤ Real.sqrt (normSq (fun _ => (1 : ℝ))) := by
    rw [hn]
    have h1 : (1 : ℝ) ≤ Real.sqrt 384 := by
      rw [show (1 : ℝ) = Real.sqrt 1 from (Real.sqrt_one).symm]
      exact Real.sqrt_le_sqrt (by norm_num)
    linarith [h1]
  exact ⟨⟨hsqrt, vector_unit_norm_amended.1 (fun _ => 1) hsqrt⟩,
    vector_unit_norm_amended.2.2.1 (fun _ => none) [] zeroVec rfl⟩
